import Mathlib

/-!
Verification development for the snake_py repository.

The Python sources are shallowly embedded below:
- src/astar_pathfinding.py : Node, AStarPathfinder (grid mapping, neighbor
  generation, obstacle model, the A* search loop, path reconstruction) and the
  SnakeAI move policy;
- src/snake_ai.py and src/Snake.py : direction update rule and fruit respawn.

Python integers are modelled as Int; Python floor division (//) is Int.fdiv.
Python lists of two ints (positions) are pairs.  heapq's push and pop are
modelled exactly (CPython Lib/heapq.py), including its comparison pattern,
because the pop order among equal-cost nodes determines which concrete path
the search returns.
-/

set_option linter.unusedVariables false

namespace SnakePy

/-- A pixel or grid coordinate pair, modelling the Python two-element
position lists and tuples. -/
abbrev Pos : Type := Int × Int

/-! ### src/astar_pathfinding.py, class Node (lines 19-49)

A node carries grid coordinates, `g_cost`, `h_cost`, `f_cost` and a parent
link.  `__eq__`/`__hash__` compare coordinates only; `__lt__` compares
`f_cost` only. -/

/-- Node from src/astar_pathfinding.py. -/
inductive Node : Type where
  | mk (x y : Int) (g_cost h_cost f_cost : Int) (parent : Option Node)

instance : Inhabited Node := ⟨.mk 0 0 0 0 0 none⟩

def Node.x : Node → Int | .mk x _ _ _ _ _ => x

def Node.y : Node → Int | .mk _ y _ _ _ _ => y

def Node.g_cost : Node → Int | .mk _ _ g _ _ _ => g

def Node.h_cost : Node → Int | .mk _ _ _ h _ _ => h

def Node.f_cost : Node → Int | .mk _ _ _ _ f _ => f

def Node.parent : Node → Option Node | .mk _ _ _ _ _ p => p

/-- Node.__lt__ (line 39-41): heapq comparisons look at f_cost only. -/
def Node.lt (a b : Node) : Bool := decide (a.f_cost < b.f_cost)

/-! ### CPython heapq (Lib/heapq.py)

find_path uses heapq.heappush / heapq.heappop on a plain Python list.  The
functions below are the exact CPython algorithms; list indexing is total via
getD with the default node (all indices used are in range on the loop's
actual states). -/

/-- CPython heapq._siftdown: bubble newitem from pos toward startpos, moving
larger parents down, and finally store newitem.  The parent slot of pos is
(pos - 1) / 2, CPython's (pos - 1) >> 1.  The loop is driven by a structural
fuel argument so that the function evaluates by kernel reduction; every call
supplies fuel larger than pos, and pos strictly decreases, so the fuel-out
branch is never taken on those calls. -/
def siftdown : Nat → List Node → Nat → Nat → Node → List Node
  | 0, heap, _, pos, newitem => heap.set pos newitem
  | fuel + 1, heap, startpos, pos, newitem =>
    if startpos < pos then
      if Node.lt newitem (heap.getD ((pos - 1) / 2) default) then
        siftdown fuel (heap.set pos (heap.getD ((pos - 1) / 2) default)) startpos
          ((pos - 1) / 2) newitem
      else
        heap.set pos newitem
    else
      heap.set pos newitem

/-- The child-slot selection inside CPython heapq._siftup's loop: move to the
right sibling when it exists and the left child is not smaller than it. -/
def pick_child (heap : List Node) (childpos endpos : Nat) : Nat :=
  if childpos + 1 < endpos ∧
      ¬ Node.lt (heap.getD childpos default) (heap.getD (childpos + 1) default)
  then childpos + 1 else childpos

/-- CPython heapq._siftup: walk a hole from pos down to a leaf, always moving
the smaller child up (the right child on ties, per the source's comparison),
then place newitem in the hole and sift it back up with _siftdown.  Fuel as
in siftdown: endpos - pos shrinks every step and callers pass endpos, so the
fuel-out branch is never taken on those calls. -/
def siftup : Nat → List Node → Nat → Nat → Nat → Node → List Node
  | 0, heap, _, pos, _, newitem => heap.set pos newitem
  | fuel + 1, heap, startpos, pos, endpos, newitem =>
    if 2 * pos + 1 < endpos then
      siftup fuel (heap.set pos (heap.getD (pick_child heap (2 * pos + 1) endpos) default))
        startpos (pick_child heap (2 * pos + 1) endpos) endpos newitem
    else
      siftdown (pos + 1) (heap.set pos newitem) startpos pos newitem

/-- CPython heapq.heappush: append, then sift the new item toward the root. -/
def heappush (heap : List Node) (item : Node) : List Node :=
  let heap2 := heap ++ [item]
  siftdown heap2.length heap2 0 (heap2.length - 1) item

/-- CPython heapq.heappop: remove the last element; if the heap is still
nonempty, return the root, move the last element into the root slot and sift
it up.  The search loop only pops nonempty heaps; on [] this model returns
the default node. -/
def heappop (heap : List Node) : Node × List Node :=
  let lastelt := heap.getLastD default
  match h : heap.dropLast with
  | [] => (lastelt, [])
  | x :: xs =>
    (x, siftup (x :: xs).length ((x :: xs).set 0 lastelt) 0 0 (x :: xs).length lastelt)

/-! ### src/astar_pathfinding.py, class AStarPathfinder (lines 52-255) -/

/-- AStarPathfinder's constructor data (lines 60-71): cell size and the grid
dimensions in cells, derived by floor division from the window size. -/
structure AStarPathfinder where
  cell_size : Int
  grid_cols : Int
  grid_rows : Int

/-- __init__ (lines 60-71). -/
def AStarPathfinder.make (grid_width grid_height cell_size : Int) : AStarPathfinder :=
  { cell_size := cell_size
    grid_cols := Int.fdiv grid_width cell_size
    grid_rows := Int.fdiv grid_height cell_size }

/-- pixel_to_grid (lines 73-75): floor division by the cell size. -/
def pixel_to_grid (pf : AStarPathfinder) (x y : Int) : Pos :=
  (Int.fdiv x pf.cell_size, Int.fdiv y pf.cell_size)

/-- grid_to_pixel (lines 77-79). -/
def grid_to_pixel (pf : AStarPathfinder) (grid_x grid_y : Int) : Pos :=
  (grid_x * pf.cell_size, grid_y * pf.cell_size)

/-- manhattan_distance (lines 81-90), on the coordinates of the two nodes. -/
def manhattan_distance (x1 y1 x2 y2 : Int) : Int :=
  |x1 - x2| + |y1 - y2|

/-- get_neighbors (lines 92-107): the four axis neighbors, in source order
left, right, up, down, bounds-filtered; fresh nodes with zero costs. -/
def get_neighbors (pf : AStarPathfinder) (node : Node) : List Node :=
  (([(-1, 0), (1, 0), (0, -1), (0, 1)] : List (Int × Int)).filterMap fun d =>
    let new_x := node.x + d.1
    let new_y := node.y + d.2
    if 0 ≤ new_x ∧ new_x < pf.grid_cols ∧ 0 ≤ new_y ∧ new_y < pf.grid_rows then
      some (Node.mk new_x new_y 0 0 0 none)
    else none)

/-- is_safe_position (lines 109-129): map the body to grid cells, drop the
tail cell when ignore_tail is set and the body has more than one segment,
then test non-membership. -/
def is_safe_position (pf : AStarPathfinder) (x y : Int) (snake_body : List Pos)
    (ignore_tail : Bool) : Bool :=
  let snake_grid_positions := snake_body.map fun segment => pixel_to_grid pf segment.1 segment.2
  let snake_grid_positions :=
    if ignore_tail ∧ snake_grid_positions.length > 1 then snake_grid_positions.dropLast
    else snake_grid_positions
  !decide ((x, y) ∈ snake_grid_positions)

/-- The body of find_path's neighbor for-loop (lines 169-196), abstracted over
the safety test that line 175 performs.  When the neighbor is already in the
open set, the source's update branch (lines 189-193) assigns costs and parent
to the freshly generated local node and never reinserts it, so the open set
is left unchanged in that case. -/
def process_neighbor (pf : AStarPathfinder) (safe : Int → Int → Bool) (goal : Pos)
    (current_node : Node) (closed_set : List Pos) (open_set : List Node)
    (neighbor : Node) : List Node :=
  if (neighbor.x, neighbor.y) ∈ closed_set then open_set
  else if ¬ safe neighbor.x neighbor.y then open_set
  else
    let tentative_g_cost := current_node.g_cost + 1
    let existing_neighbor :=
      open_set.find? fun node => decide (node.x = neighbor.x ∧ node.y = neighbor.y)
    match existing_neighbor with
    | none =>
      let g := tentative_g_cost
      let hc := manhattan_distance neighbor.x neighbor.y goal.1 goal.2
      heappush open_set (Node.mk neighbor.x neighbor.y g hc (g + hc) (some current_node))
    | some _ => open_set

/-- _reconstruct_path's while-loop (lines 206-212): collect pixel coordinates
goal-first along parent links. -/
def walk_parents (pf : AStarPathfinder) : Node → List Pos
  | .mk x y _ _ _ none => [grid_to_pixel pf x y]
  | .mk x y _ _ _ (some parent) => grid_to_pixel pf x y :: walk_parents pf parent

/-- _reconstruct_path (lines 201-216). -/
def reconstruct_path (pf : AStarPathfinder) (goal_node : Node) : List Pos :=
  (walk_parents pf goal_node).reverse

/-- The while-loop of find_path (lines 159-197), abstracted over the safety
test of line 175.  closed_set is modelled as the list of popped cells, newest
first: the Python set is only ever read through membership tests, for which
the two are interchangeable, and the list also records the expansion history.
The result besides the path is the final closed list.  Fuel bounds the
iteration count; find_path supplies fuel proven sufficient for the loop to
reach one of the source's two exits (empty open set, or goal popped). -/
def astar_loop (pf : AStarPathfinder) (safe : Int → Int → Bool) (goal : Pos) :
    Nat → List Node → List Pos → Option (Option (List Pos) × List Pos)
  | 0, _, _ => none
  | fuel + 1, open_set, closed_set =>
    if open_set.isEmpty then some (none, closed_set)
    else
      let popped := heappop open_set
      let current_node := popped.1
      let closed2 := (current_node.x, current_node.y) :: closed_set
      if current_node.x = goal.1 ∧ current_node.y = goal.2 then
        some (some (reconstruct_path pf current_node), closed2)
      else
        let open2 := (get_neighbors pf current_node).foldl
          (process_neighbor pf safe goal current_node closed2) popped.2
        astar_loop pf safe goal fuel open2 closed2

/-- Fuel sufficient for astar_loop: one iteration per in-bounds cell, plus one
for a possibly out-of-bounds start cell, plus the final empty-open check. -/
def astar_fuel (pf : AStarPathfinder) : Nat :=
  (pf.grid_cols * pf.grid_rows).toNat + 2

/-- find_path (lines 131-199): convert the endpoints to grid cells, run the
A* loop seeded with the start node (zero costs, no parent), with the safety
test of line 175: is_safe_position on the snake body with ignore_tail True. -/
def find_path (pf : AStarPathfinder) (start_pos goal_pos : Pos)
    (snake_body : List Pos) : Option (List Pos) :=
  let start_grid := pixel_to_grid pf start_pos.1 start_pos.2
  let goal_grid := pixel_to_grid pf goal_pos.1 goal_pos.2
  let start_node := Node.mk start_grid.1 start_grid.2 0 0 0 none
  let open_set := heappush [] start_node
  match astar_loop pf (fun x y => is_safe_position pf x y snake_body true) goal_grid
      (astar_fuel pf) open_set [] with
  | some (res, _) => res
  | none => none

/-- The snake's four movement directions ('UP', 'DOWN', 'LEFT', 'RIGHT'). -/
inductive Direction : Type where
  | UP
  | DOWN
  | LEFT
  | RIGHT
deriving DecidableEq, Repr

/-- get_next_direction (lines 218-241): horizontal delta first, RIGHT as the
final fallback. -/
def get_next_direction (current_pos target_pos : Pos) : Direction :=
  let dx := target_pos.1 - current_pos.1
  let dy := target_pos.2 - current_pos.2
  if dx > 0 then .RIGHT
  else if dx < 0 then .LEFT
  else if dy > 0 then .DOWN
  else if dy < 0 then .UP
  else .RIGHT

/-- find_safe_path_to_tail (lines 243-255): for a body of at least two
segments, search from the head to the tail segment's position, passing the
body without its last segment as the obstacle source. -/
def find_safe_path_to_tail (pf : AStarPathfinder) (snake_head : Pos)
    (snake_body : List Pos) : Option (List Pos) :=
  if snake_body.length < 2 then none
  else
    let tail_pos := snake_body.getLastD (0, 0)
    find_path pf snake_head tail_pos snake_body.dropLast

/-! ### src/astar_pathfinding.py, class SnakeAI (lines 258-329) -/

/-- The pixel step of _make_safe_move (lines 306-315): a literal 10-pixel
offset per direction. -/
def move_step (p : Pos) (d : Direction) : Pos :=
  match d with
  | .UP => (p.1, p.2 - 10)
  | .DOWN => (p.1, p.2 + 10)
  | .LEFT => (p.1 - 10, p.2)
  | .RIGHT => (p.1 + 10, p.2)

/-- One candidate test of _make_safe_move's loop (lines 305-326): the moved
position, converted to a grid cell, must be in bounds and safe with respect
to the body (tail ignored). -/
def safe_step (pf : AStarPathfinder) (snake_head : Pos) (snake_body : List Pos)
    (d : Direction) : Bool :=
  let next_pos := move_step snake_head d
  let grid_pos := pixel_to_grid pf next_pos.1 next_pos.2
  decide (0 ≤ grid_pos.1 ∧ grid_pos.1 < pf.grid_cols ∧ 0 ≤ grid_pos.2 ∧ grid_pos.2 < pf.grid_rows)
    && is_safe_position pf grid_pos.1 grid_pos.2 snake_body true

/-- _make_safe_move (lines 298-329): scan UP, DOWN, LEFT, RIGHT in order and
return the first safe direction, RIGHT if none is. -/
def make_safe_move (pf : AStarPathfinder) (snake_head : Pos) (snake_body : List Pos) :
    Direction :=
  match ([Direction.UP, .DOWN, .LEFT, .RIGHT].find? (safe_step pf snake_head snake_body)) with
  | some direction => direction
  | none => .RIGHT

/-- Stages 2-3 of get_next_move (lines 289-296): tail path if it has at least
two cells, else the last-resort scan. -/
def survival_move (pf : AStarPathfinder) (snake_head : Pos) (snake_body : List Pos) :
    Direction :=
  match find_safe_path_to_tail pf snake_head snake_body with
  | some tail_path =>
    if tail_path.length > 1 then get_next_direction snake_head (tail_path.getD 1 (0, 0))
    else make_safe_move pf snake_head snake_body
  | none => make_safe_move pf snake_head snake_body

/-- get_next_move (lines 271-296): food path first, then the survival stages. -/
def get_next_move (pf : AStarPathfinder) (snake_head food_pos : Pos)
    (snake_body : List Pos) : Direction :=
  match find_path pf snake_head food_pos snake_body with
  | some path =>
    if path.length > 1 then get_next_direction snake_head (path.getD 1 (0, 0))
    else survival_move pf snake_head snake_body
  | none => survival_move pf snake_head snake_body

/-! ### src/snake_ai.py and src/Snake.py -/

/-- The 180-degree opposite of a direction. -/
def Direction.opposite : Direction → Direction
  | .UP => .DOWN
  | .DOWN => .UP
  | .LEFT => .RIGHT
  | .RIGHT => .LEFT

/-- update_direction's validation (snake_ai.py lines 183-190): an elif chain
keeping the prior direction on a 180-degree reversal. -/
def update_direction (change_to direction : Direction) : Direction :=
  if change_to = .UP ∧ direction ≠ .DOWN then .UP
  else if change_to = .DOWN ∧ direction ≠ .UP then .DOWN
  else if change_to = .LEFT ∧ direction ≠ .RIGHT then .LEFT
  else if change_to = .RIGHT ∧ direction ≠ .LEFT then .RIGHT
  else direction

/-- Snake.py lines 119-126: four separate if statements; each later test reads
the direction variable as already updated by the earlier ones. -/
def update_direction_seq (change_to direction : Direction) : Direction :=
  let d1 := if change_to = .UP ∧ direction ≠ .DOWN then Direction.UP else direction
  let d2 := if change_to = .DOWN ∧ d1 ≠ .UP then Direction.DOWN else d1
  let d3 := if change_to = .LEFT ∧ d2 ≠ .RIGHT then Direction.LEFT else d2
  if change_to = .RIGHT ∧ d3 ≠ .LEFT then Direction.RIGHT else d3

/-- Fruit respawn (snake_ai.py lines 215-219, Snake.py lines 148-151): each
coordinate is an independent randrange(1, window // 10) draw times 10. -/
def spawn_fruit (rx ry : Int) : Pos := (rx * 10, ry * 10)

/-- The value range of randrange(1, window // 10). -/
def fruit_draw_valid (window v : Int) : Prop := 1 ≤ v ∧ v < Int.fdiv window 10

instance (window v : Int) : Decidable (fruit_draw_valid window v) :=
  inferInstanceAs (Decidable (1 ≤ v ∧ v < Int.fdiv window 10))

/-! ### Derived notions used to state and prove the properties -/

/-- Decidable equality on nodes (structural, following the parent chain). -/
def Node.deq : (a b : Node) → Decidable (a = b)
  | .mk x y g h f none, .mk x' y' g' h' f' none =>
    if he : x = x' ∧ y = y' ∧ g = g' ∧ h = h' ∧ f = f' then
      isTrue (by obtain ⟨a, b, c, d, e⟩ := he; subst a; subst b; subst c; subst d; subst e; rfl)
    else isFalse (by intro hc; cases hc; exact he ⟨rfl, rfl, rfl, rfl, rfl⟩)
  | .mk _ _ _ _ _ none, .mk _ _ _ _ _ (some _) => isFalse (by intro hc; cases hc)
  | .mk _ _ _ _ _ (some _), .mk _ _ _ _ _ none => isFalse (by intro hc; cases hc)
  | .mk x y g h f (some p), .mk x' y' g' h' f' (some p') =>
    match Node.deq p p' with
    | isTrue hp =>
      if he : x = x' ∧ y = y' ∧ g = g' ∧ h = h' ∧ f = f' then
        isTrue (by
          obtain ⟨a, b, c, d, e⟩ := he
          subst a; subst b; subst c; subst d; subst e; subst hp; rfl)
      else isFalse (by intro hc; cases hc; exact he ⟨rfl, rfl, rfl, rfl, rfl⟩)
    | isFalse hp => isFalse (by intro hc; cases hc; exact hp rfl)

instance : DecidableEq Node := Node.deq

/-- The grid cell a node stands on. -/
def node_pos (n : Node) : Pos := (n.x, n.y)

/-- The cells of the nodes of an open set. -/
def open_cells (open_set : List Node) : List Pos := open_set.map node_pos

/-- Two grid cells are adjacent when they differ by one in exactly one
coordinate. -/
def adjacent (a b : Pos) : Prop := |b.1 - a.1| + |b.2 - a.2| = 1

/-- A grid cell within the pathfinder's bounds. -/
def in_bounds (pf : AStarPathfinder) (c : Pos) : Prop :=
  0 ≤ c.1 ∧ c.1 < pf.grid_cols ∧ 0 ≤ c.2 ∧ c.2 < pf.grid_rows

instance (pf : AStarPathfinder) (c : Pos) : Decidable (in_bounds pf c) :=
  inferInstanceAs (Decidable (0 ≤ c.1 ∧ c.1 < pf.grid_cols ∧ 0 ≤ c.2 ∧ c.2 < pf.grid_rows))

/-- Well-formedness of a search node with respect to a start cell, a goal
cell and a safety test: the parent chain reaches back to the start node
(zero costs, as built by find_path), every step is an in-bounds, safe,
adjacent cell, g counts the steps, h is the Manhattan heuristic and
f = g + h, exactly as maintained by the search loop. -/
def NodeOk (pf : AStarPathfinder) (safe : Int → Int → Bool) (start goal : Pos) :
    Node → Prop
  | .mk x y g h f none => (x, y) = start ∧ g = 0 ∧ h = 0 ∧ f = 0
  | .mk x y g h f (some p) =>
      NodeOk pf safe start goal p ∧
      adjacent (node_pos p) (x, y) ∧
      in_bounds pf (x, y) ∧
      safe x y = true ∧
      g = p.g_cost + 1 ∧
      h = manhattan_distance x y goal.1 goal.2 ∧
      f = g + h

/-- The binary-heap shape maintained by heapq: no child is smaller than its
parent under Node.lt. -/
def HeapInv (heap : List Node) : Prop :=
  ∀ i j : Nat, (j = 2 * i + 1 ∨ j = 2 * i + 2) → j < heap.length →
    ¬ (Node.lt (heap.getD j default) (heap.getD i default) = true)

/-- The grid cells along a node's parent chain, the node's own cell first. -/
def chain_cells : Node → List Pos
  | .mk x y _ _ _ none => [(x, y)]
  | .mk x y _ _ _ (some p) => (x, y) :: chain_cells p

/-- The distance between two cells as the search heuristic measures it. -/
def cell_dist (a b : Pos) : Int := manhattan_distance a.1 a.2 b.1 b.2

/-- The invariant of the A* loop state: every open node has a valid parent
chain, cells are unique across the open and closed collections, the open
list is a binary heap, every safe in-bounds neighbor of a closed cell has
been discovered, and the closed list (the popped cells, newest first) stays
within the start cell and the grid. -/
structure SearchInv (pf : AStarPathfinder) (safe : Int → Int → Bool) (start goal : Pos)
    (open_set : List Node) (closed_set : List Pos) : Prop where
  node_ok : ∀ n ∈ open_set, NodeOk pf safe start goal n
  coords_nodup : (open_cells open_set).Nodup
  coords_disj : ∀ n ∈ open_set, node_pos n ∉ closed_set
  closed_range : ∀ c ∈ closed_set, c = start ∨ in_bounds pf c
  closed_nodup : closed_set.Nodup
  heap_ok : HeapInv open_set
  frontier : ∀ c ∈ closed_set, ∀ d : Pos, adjacent c d → in_bounds pf d →
    safe d.1 d.2 = true → d ∈ open_cells open_set ∨ d ∈ closed_set
  empty_case : closed_set = [] → open_set = [Node.mk start.1 start.2 0 0 0 none]
  start_closed : closed_set ≠ [] → start ∈ closed_set

/-- The extra invariant for the optimality argument on an obstacle-free
grid: every closed cell lies on a shortest start-goal line and is not the
goal, and every open node's parent was popped with its optimal g. -/
structure OptInv (pf : AStarPathfinder) (safe : Int → Int → Bool) (start goal : Pos)
    (open_set : List Node) (closed_set : List Pos) : Prop where
  all_safe : ∀ x y : Int, safe x y = true
  start_in : in_bounds pf start
  goal_in : in_bounds pf goal
  closed_shortest : ∀ c ∈ closed_set,
    cell_dist start c + cell_dist c goal = cell_dist start goal
  closed_not_goal : ∀ c ∈ closed_set, c ≠ goal
  parent_opt : ∀ n ∈ open_set, ∀ p : Node, n.parent = some p →
    node_pos p ∈ closed_set ∧ p.g_cost = cell_dist start (node_pos p)

/-- The cells a search can ever close: the start cell plus the grid. -/
def allowed_cells (pf : AStarPathfinder) (start : Pos) : Finset Pos :=
  insert start ((Finset.Icc 0 (pf.grid_cols - 1)) ×ˢ (Finset.Icc 0 (pf.grid_rows - 1)))

/-- The grid cells of a list of pixel segments (the obstacle footprint of a
body before any tail handling). -/
def grid_cells (pf : AStarPathfinder) (body : List Pos) : List Pos :=
  body.map fun segment => pixel_to_grid pf segment.1 segment.2

/-- Search-engine variant written after the spec's words for the goal
exemption: identical to find_path except that a neighbor equal to the goal
cell bypasses the obstacle check. -/
def find_path_goal_exempt (pf : AStarPathfinder) (start_pos goal_pos : Pos)
    (snake_body : List Pos) : Option (List Pos) :=
  let start_grid := pixel_to_grid pf start_pos.1 start_pos.2
  let goal_grid := pixel_to_grid pf goal_pos.1 goal_pos.2
  let start_node := Node.mk start_grid.1 start_grid.2 0 0 0 none
  let open_set := heappush [] start_node
  match astar_loop pf
      (fun x y => decide ((x, y) = goal_grid) || is_safe_position pf x y snake_body true)
      goal_grid (astar_fuel pf) open_set [] with
  | some (res, _) => res
  | none => none

/-- Search-engine variant used to state which obstacle set a search runs
over: identical to find_path except that the skipped cells are exactly the
members of an explicitly given obstacle cell list. -/
def find_path_with_obstacles (pf : AStarPathfinder) (start_pos goal_pos : Pos)
    (obstacles : List Pos) : Option (List Pos) :=
  let start_grid := pixel_to_grid pf start_pos.1 start_pos.2
  let goal_grid := pixel_to_grid pf goal_pos.1 goal_pos.2
  let start_node := Node.mk start_grid.1 start_grid.2 0 0 0 none
  let open_set := heappush [] start_node
  match astar_loop pf (fun x y => !decide ((x, y) ∈ obstacles)) goal_grid
      (astar_fuel pf) open_set [] with
  | some (res, _) => res
  | none => none

/-- The tail-directed search as the spec's words describe it for claim C2:
the same engine, over an obstacle set equal to the body's cells minus the
tail cell. -/
def tail_search_spec (pf : AStarPathfinder) (snake_head : Pos)
    (snake_body : List Pos) : Option (List Pos) :=
  if snake_body.length < 2 then none
  else
    let tail_pos := snake_body.getLastD (0, 0)
    let tail_cell := pixel_to_grid pf tail_pos.1 tail_pos.2
    find_path_with_obstacles pf snake_head tail_pos
      ((grid_cells pf snake_body).filter fun c => decide (c ≠ tail_cell))

/-- The ignore-tail reduction that is_safe_position applies to a cell list. -/
def ignore_tail_cells (cells : List Pos) : List Pos :=
  if cells.length > 1 then cells.dropLast else cells

/-- The reference pathfinder: 720 by 480 window, cell size 10 (72 by 48
cells), as constructed by both game drivers. -/
def std_pathfinder : AStarPathfinder := AStarPathfinder.make 720 480 10

/-- The initial snake body of both game drivers. -/
def initial_body : List Pos := [(100, 50), (90, 50), (80, 50), (70, 50)]

/-- A 3 by 3 cell pathfinder (30 by 30 window, cell size 10). -/
def pf_3x3 : AStarPathfinder := AStarPathfinder.make 30 30 10

/-- A three-segment body on the 3 by 3 grid whose second segment sits on the
cell (1, 0); with the tail ignored, the obstacle cells are (0, 0) and (1, 0). -/
def body_3x3 : List Pos := [(0, 0), (10, 0), (10, 10)]

/-- A 3 by 1 cell pathfinder (30 by 10 window, cell size 10). -/
def pf_3x1 : AStarPathfinder := AStarPathfinder.make 30 10 10

/-- A snake filling the 3 by 1 grid: head (0,0), middle (1,0), tail (2,0). -/
def body_3x1 : List Pos := [(0, 0), (10, 0), (20, 0)]

/-- The path find_path returns on the reference 72 by 48 grid from pixel
(100, 50) to (150, 50) around initial_body. -/
def std_scenario_path : List Pos :=
  [(100, 50), (110, 50), (120, 50), (130, 50), (140, 50), (150, 50)]

/-! ## Lemmas: generic list facts -/

theorem getD_set_self {α : Type} (l : List α) (i : Nat) (a d : α) (h : i < l.length) :
    (l.set i a).getD i d = a := by
  simp [List.getD_eq_getElem?_getD, List.getElem?_set_self', h]

theorem getD_set_ne {α : Type} (l : List α) (i j : Nat) (a d : α) (h : i ≠ j) :
    (l.set i a).getD j d = l.getD j d := by
  simp [List.getD_eq_getElem?_getD, List.getElem?_set_ne h]

theorem getD_eq_getElem {α : Type} (l : List α) (i : Nat) (d : α) (h : i < l.length) :
    l.getD i d = l[i] := by
  simp [List.getD_eq_getElem?_getD, List.getElem?_eq_getElem h]

theorem count_set {α : Type} [DecidableEq α] (l : List α) (i : Nat) (b x d : α)
    (h : i < l.length) :
    (l.set i b).count x + (if l.getD i d = x then 1 else 0)
      = l.count x + (if b = x then 1 else 0) := by
  rw [List.set_eq_take_cons_drop b h]
  conv_rhs => rw [← List.take_append_drop i l, List.drop_eq_getElem_cons h]
  rw [getD_eq_getElem l i d h]
  simp only [List.count_append, List.count_cons]
  by_cases hbx : b = x <;> by_cases hlx : l[i] = x <;>
    simp [hbx, hlx, beq_iff_eq] <;> omega

/-! ## Lemmas: the heap operations permute list contents -/

theorem pick_child_bounds (heap : List Node) (childpos endpos : Nat) :
    childpos ≤ pick_child heap childpos endpos ∧
      pick_child heap childpos endpos ≤ childpos + 1 := by
  unfold pick_child; split <;> omega

theorem pick_child_lt (heap : List Node) (childpos endpos : Nat) (h : childpos < endpos) :
    pick_child heap childpos endpos < endpos := by
  unfold pick_child; split <;> omega

theorem siftdown_count (x : Node) (fuel : Nat) :
    ∀ (heap : List Node) (startpos pos : Nat) (ni : Node), pos < fuel → pos < heap.length →
      (siftdown fuel heap startpos pos ni).count x = ((heap.set pos ni).count x) := by
  induction fuel with
  | zero => intro _ _ pos _ hf _; omega
  | succ fuel ih =>
    intro heap s pos ni hfuel hlen
    rw [siftdown]
    split
    case isTrue hs =>
      split
      case isTrue hlt =>
        have hpp : (pos - 1) / 2 < pos := by omega
        have hpplen : (pos - 1) / 2 < heap.length := by omega
        rw [ih _ s ((pos - 1) / 2) ni (by omega) (by simpa using hpplen)]
        have hA := count_set (heap.set pos (heap.getD ((pos - 1) / 2) default))
          ((pos - 1) / 2) ni x default (by simpa using hpplen)
        have hB := count_set heap pos (heap.getD ((pos - 1) / 2) default) x default hlen
        have hC := count_set heap pos ni x default hlen
        rw [getD_set_ne heap pos ((pos - 1) / 2) _ default (by omega)] at hA
        omega
      case isFalse => rfl
    case isFalse => rfl

theorem siftup_count (x : Node) (fuel : Nat) :
    ∀ (heap : List Node) (startpos pos endpos : Nat) (ni : Node),
      endpos ≤ fuel + pos → endpos = heap.length → pos < endpos →
      (siftup fuel heap startpos pos endpos ni).count x = ((heap.set pos ni).count x) := by
  induction fuel with
  | zero => intro heap s pos endpos ni hf hend hpos; rfl
  | succ fuel ih =>
    intro heap s pos endpos ni hf hend hpos
    rw [siftup]
    split
    case isTrue hs =>
      have hcb := pick_child_bounds heap (2 * pos + 1) endpos
      have hcl := pick_child_lt heap (2 * pos + 1) endpos hs
      rw [ih _ s _ _ ni (by omega) (by simp [hend]) hcl]
      have hA := count_set (heap.set pos (heap.getD (pick_child heap (2 * pos + 1) endpos) default))
        (pick_child heap (2 * pos + 1) endpos) ni x default (by simp; omega)
      have hB := count_set heap pos (heap.getD (pick_child heap (2 * pos + 1) endpos) default)
        x default (by omega)
      have hC := count_set heap pos ni x default (by omega)
      rw [getD_set_ne heap pos (pick_child heap (2 * pos + 1) endpos) _ default (by omega)] at hA
      omega
    case isFalse hs =>
      rw [siftdown_count x (pos + 1) _ s pos ni (by omega) (by simp; omega), List.set_set]

theorem heappush_count (heap : List Node) (item x : Node) :
    (heappush heap item).count x = ((item :: heap).count x) := by
  show (siftdown (heap ++ [item]).length (heap ++ [item]) 0 ((heap ++ [item]).length - 1)
    item).count x = _
  have hlen : (heap ++ [item]).length - 1 = heap.length := by simp
  rw [hlen, siftdown_count x (heap ++ [item]).length _ 0 heap.length item (by simp) (by simp)]
  have hset : (heap ++ [item]).set heap.length item = heap ++ [item] := by
    rw [List.set_eq_take_cons_drop item (by simp)]
    simp [List.take_left, List.drop_eq_nil_of_le]
  rw [hset]
  simp [List.count_append, List.count_cons]

theorem heappush_perm (heap : List Node) (item : Node) :
    List.Perm (heappush heap item) (item :: heap) :=
  List.perm_iff_count.mpr fun x => heappush_count heap item x

theorem heappop_perm (heap : List Node) (h : heap ≠ []) :
    List.Perm heap ((heappop heap).1 :: (heappop heap).2) := by
  unfold heappop
  split
  case h_1 heq =>
    have hlen : heap.length ≤ 1 := by
      have := congrArg List.length heq
      simp [List.length_dropLast] at this
      omega
    cases heap with
    | nil => exact absurd rfl h
    | cons a t =>
      cases t with
      | nil => simp
      | cons b t2 => simp at hlen
  case h_2 xx xs heq =>
    have hhe : heap = (xx :: xs) ++ [heap.getLast h] := by
      conv_lhs => rw [← List.dropLast_append_getLast h]
      rw [heq]
    have hlast : heap.getLastD default = heap.getLast h := by
      rw [List.getLastD_eq_getLast?, List.getLast?_eq_getLast _ h]
      rfl
    refine List.perm_iff_count.mpr fun y => ?_
    have hS := siftup_count y (xx :: xs).length ((xx :: xs).set 0 (heap.getLastD default))
      0 0 (xx :: xs).length (heap.getLastD default) (by omega) (by simp) (by simp)
    simp only [List.count_cons]
    rw [hS, List.set_set]
    conv_lhs => rw [hhe]
    have hsetz : (xx :: xs).set 0 (heap.getLastD default) = heap.getLastD default :: xs := rfl
    rw [hsetz, hlast]
    simp [List.count_append, List.count_cons]

theorem heappop_length (heap : List Node) (h : heap ≠ []) :
    (heappop heap).2.length + 1 = heap.length := by
  have := (heappop_perm heap h).length_eq
  simpa using this.symm

theorem heappop_mem (heap : List Node) (h : heap ≠ []) :
    (heappop heap).1 ∈ heap :=
  (heappop_perm heap h).mem_iff.mpr (List.mem_cons_self _ _)

/-! ## Lemmas: the heap operations preserve the heap shape; the pop is minimal -/

theorem Node.lt_iff {a b : Node} : Node.lt a b = true ↔ a.f_cost < b.f_cost := by
  simp [Node.lt]

theorem Node.not_lt_iff {a b : Node} : ¬ (Node.lt a b = true) ↔ b.f_cost ≤ a.f_cost := by
  simp [Node.lt]

theorem heap_root_min (heap : List Node) (hinv : HeapInv heap) (i : Nat) :
    i < heap.length → (heap.getD 0 default).f_cost ≤ (heap.getD i default).f_cost := by
  induction i using Nat.strong_induction_on with
  | _ i ih =>
    intro hi
    rcases Nat.eq_zero_or_pos i with h0 | h0
    · subst h0; exact le_refl _
    · have hedge : i = 2 * ((i - 1) / 2) + 1 ∨ i = 2 * ((i - 1) / 2) + 2 := by omega
      have hpar := hinv ((i - 1) / 2) i hedge hi
      rw [Node.not_lt_iff] at hpar
      exact le_trans (ih ((i - 1) / 2) (by omega) (by omega)) hpar

theorem pick_child_min (heap : List Node) (cp endpos : Nat) (j : Nat)
    (hj : j = cp ∨ j = cp + 1) (hcj : j < endpos) :
    ¬ (Node.lt (heap.getD j default) (heap.getD (pick_child heap cp endpos) default) = true) := by
  unfold pick_child
  split
  case isTrue hcond =>
    rcases hj with rfl | rfl
    · exact hcond.2
    · rw [Node.not_lt_iff]
  case isFalse hcond =>
    rcases hj with rfl | rfl
    · rw [Node.not_lt_iff]
    · rw [Node.not_lt_iff]
      have : Node.lt (heap.getD cp default) (heap.getD (cp + 1) default) = true := by
        by_contra hnl
        exact hcond ⟨hcj, hnl⟩
      rw [Node.lt_iff] at this
      omega

theorem siftdown_inv (fuel : Nat) :
    ∀ (heap : List Node) (pos : Nat) (ni : Node), pos < fuel → pos < heap.length →
    (∀ i j : Nat, (j = 2 * i + 1 ∨ j = 2 * i + 2) → j < heap.length → j ≠ pos →
       ¬ (Node.lt (heap.getD j default) (heap.getD i default) = true)) →
    (∀ j : Nat, (j = 2 * pos + 1 ∨ j = 2 * pos + 2) → j < heap.length →
       ¬ (Node.lt (heap.getD j default) ni = true)) →
    (0 < pos → ∀ j : Nat, (j = 2 * pos + 1 ∨ j = 2 * pos + 2) → j < heap.length →
       ¬ (Node.lt (heap.getD j default) (heap.getD ((pos - 1) / 2) default) = true)) →
    HeapInv (siftdown fuel heap 0 pos ni) := by
  induction fuel with
  | zero => intro _ pos _ hf; omega
  | succ fuel ih =>
    intro heap pos ni hfuel hlen hP2 hP3 hP4
    rw [siftdown]
    split
    case isTrue hs =>
      split
      case isTrue hlt =>
        have hpplt : (pos - 1) / 2 < pos := by omega
        have hpplen : (pos - 1) / 2 < heap.length := by omega
        have hppne : (pos - 1) / 2 ≠ pos := by omega
        have hposchild : pos = 2 * ((pos - 1) / 2) + 1 ∨ pos = 2 * ((pos - 1) / 2) + 2 := by
          omega
        refine ih _ ((pos - 1) / 2) ni (by omega) (by simpa using hpplen) ?_ ?_ ?_
        · -- P2 for heap.set pos parent with hole (pos-1)/2
          intro i j hij hjlen hjne
          rw [List.length_set] at hjlen
          by_cases hjpos : j = pos
          · have hipp : i = (pos - 1) / 2 := by omega
            rw [hjpos, hipp, getD_set_self heap pos _ default hlen,
              getD_set_ne heap pos ((pos - 1) / 2) _ default (by omega)]
            rw [Node.not_lt_iff]
          · rw [getD_set_ne heap pos j _ default (by omega)]
            by_cases hipos : i = pos
            · rw [hipos, getD_set_self heap pos _ default hlen]
              exact hP4 hs j (by omega) hjlen
            · rw [getD_set_ne heap pos i _ default (by omega)]
              exact hP2 i j hij hjlen hjpos
        · -- P3: children of the new hole are at least ni
          intro j hij hjlen
          rw [List.length_set] at hjlen
          by_cases hjpos : j = pos
          · rw [hjpos, getD_set_self heap pos _ default hlen, Node.not_lt_iff]
            rw [Node.lt_iff] at hlt
            omega
          · rw [getD_set_ne heap pos j _ default (by omega)]
            have hedge := hP2 ((pos - 1) / 2) j hij hjlen hjpos
            rw [Node.not_lt_iff] at hedge
            rw [Node.lt_iff] at hlt
            rw [Node.not_lt_iff]
            omega
        · -- P4: children of the new hole are at least its parent
          intro hpp0 j hij hjlen
          rw [List.length_set] at hjlen
          have hgplt : ((pos - 1) / 2 - 1) / 2 < (pos - 1) / 2 := by omega
          have hgpne : ((pos - 1) / 2 - 1) / 2 ≠ pos := by omega
          rw [getD_set_ne heap pos (((pos - 1) / 2 - 1) / 2) _ default (by omega)]
          have hppedge : (pos - 1) / 2 = 2 * (((pos - 1) / 2 - 1) / 2) + 1 ∨
              (pos - 1) / 2 = 2 * (((pos - 1) / 2 - 1) / 2) + 2 := by omega
          have hgp := hP2 (((pos - 1) / 2 - 1) / 2) ((pos - 1) / 2) hppedge hpplen hppne
          rw [Node.not_lt_iff] at hgp
          by_cases hjpos : j = pos
          · rw [hjpos, getD_set_self heap pos _ default hlen, Node.not_lt_iff]
            exact hgp
          · rw [getD_set_ne heap pos j _ default (by omega)]
            have hedge := hP2 ((pos - 1) / 2) j hij hjlen hjpos
            rw [Node.not_lt_iff] at hedge
            rw [Node.not_lt_iff]
            omega
      case isFalse hlt =>
        -- place ni at pos; the parent edge holds because the comparison failed
        intro i j hij hjlen
        rw [List.length_set] at hjlen
        by_cases hjpos : j = pos
        · have hipp : i = (pos - 1) / 2 := by omega
          rw [hjpos, hipp, getD_set_self heap pos _ default hlen,
            getD_set_ne heap pos ((pos - 1) / 2) _ default (by omega)]
          exact hlt
        · rw [getD_set_ne heap pos j _ default (by omega)]
          by_cases hipos : i = pos
          · rw [hipos, getD_set_self heap pos _ default hlen]
            exact hP3 j (by omega) hjlen
          · rw [getD_set_ne heap pos i _ default (by omega)]
            exact hP2 i j hij hjlen hjpos
    case isFalse hs =>
      -- pos = 0: place ni at the root; the only edges into the root's children
      have hpos0 : pos = 0 := by omega
      intro i j hij hjlen
      rw [List.length_set] at hjlen
      have hjne : j ≠ pos := by omega
      rw [getD_set_ne heap pos j _ default (by omega)]
      by_cases hipos : i = pos
      · rw [hipos, getD_set_self heap pos _ default hlen]
        exact hP3 j (by omega) hjlen
      · rw [getD_set_ne heap pos i _ default (by omega)]
        exact hP2 i j hij hjlen hjne

theorem siftup_inv (fuel : Nat) :
    ∀ (heap : List Node) (pos endpos : Nat) (ni : Node),
      endpos ≤ fuel + pos → endpos = heap.length → pos < endpos →
      (∀ i j : Nat, (j = 2 * i + 1 ∨ j = 2 * i + 2) → j < heap.length → j ≠ pos → i ≠ pos →
         ¬ (Node.lt (heap.getD j default) (heap.getD i default) = true)) →
      (0 < pos → ∀ j : Nat, (j = 2 * pos + 1 ∨ j = 2 * pos + 2) → j < heap.length →
         ¬ (Node.lt (heap.getD j default) (heap.getD ((pos - 1) / 2) default) = true)) →
      HeapInv (siftup fuel heap 0 pos endpos ni) := by
  induction fuel with
  | zero => intro _ pos endpos _ hf _ hpos; omega
  | succ fuel ih =>
    intro heap pos endpos ni hf hend hpos hC2 hC4
    rw [siftup]
    split
    case isTrue hs =>
      have hcb := pick_child_bounds heap (2 * pos + 1) endpos
      have hcl := pick_child_lt heap (2 * pos + 1) endpos hs
      have hcgt : pos < pick_child heap (2 * pos + 1) endpos := by omega
      have hcpar : (pick_child heap (2 * pos + 1) endpos - 1) / 2 = pos := by omega
      have hcmin := fun (j : Nat) (hj : j = 2 * pos + 1 ∨ j = 2 * pos + 2)
          (hcj : j < endpos) =>
        pick_child_min heap (2 * pos + 1) endpos j (by omega) hcj
      refine ih _ _ _ ni (by omega) (by simp [hend]) hcl ?_ ?_
      · -- edges not touching the new hole
        intro i j hij hjlen hjc hic
        rw [List.length_set] at hjlen
        by_cases hjpos : j = pos
        · -- the freshly filled slot as a child: its parent relation
          have hip : i = (pos - 1) / 2 := by omega
          have hpos0 : 0 < pos := by omega
          rw [hjpos, hip, getD_set_self heap pos _ default (by omega),
            getD_set_ne heap pos ((pos - 1) / 2) _ default (by omega)]
          exact hC4 hpos0 (pick_child heap (2 * pos + 1) endpos) (by omega) (by omega)
        · rw [getD_set_ne heap pos j _ default (by omega)]
          by_cases hipos : i = pos
          · -- sibling of the chosen child under the filled slot
            rw [hipos, getD_set_self heap pos _ default (by omega)]
            exact hcmin j (by omega) (by omega)
          · rw [getD_set_ne heap pos i _ default (by omega)]
            exact hC2 i j hij hjlen hjpos hipos
      · -- children of the new hole are at least its parent, the filled slot
        intro hc0 j hij hjlen
        rw [List.length_set] at hjlen
        rw [hcpar, getD_set_self heap pos _ default (by omega)]
        have hjne : j ≠ pos := by omega
        rw [getD_set_ne heap pos j _ default (by omega)]
        exact hC2 (pick_child heap (2 * pos + 1) endpos) j hij hjlen hjne (by omega)
    case isFalse hs =>
      -- leaf reached: place ni and bubble it up
      refine siftdown_inv (pos + 1) _ pos ni (by omega) (by rw [List.length_set]; omega) ?_ ?_ ?_
      · intro i j hij hjlen hjne
        rw [List.length_set] at hjlen
        rw [getD_set_ne heap pos j _ default (by omega)]
        by_cases hipos : i = pos
        · exact absurd hjlen (by omega)
        · rw [getD_set_ne heap pos i _ default (by omega)]
          exact hC2 i j hij hjlen hjne hipos
      · intro j hij hjlen
        rw [List.length_set] at hjlen
        exact absurd hjlen (by omega)
      · intro h0 j hij hjlen
        rw [List.length_set] at hjlen
        exact absurd hjlen (by omega)

theorem heapinv_nil : HeapInv [] := by
  intro i j hij hjlen
  simp at hjlen

theorem heappush_heapinv (heap : List Node) (item : Node) (hinv : HeapInv heap) :
    HeapInv (heappush heap item) := by
  show HeapInv (siftdown (heap ++ [item]).length (heap ++ [item]) 0
    ((heap ++ [item]).length - 1) item)
  have hlen : (heap ++ [item]).length - 1 = heap.length := by simp
  rw [hlen]
  refine siftdown_inv (heap ++ [item]).length _ heap.length item (by simp) (by simp) ?_ ?_ ?_
  · intro i j hij hjlen hjne
    rw [List.length_append, List.length_singleton] at hjlen
    have hjlt : j < heap.length := by omega
    have hilt : i < heap.length := by omega
    rw [List.getD_append _ _ _ _ hjlt, List.getD_append _ _ _ _ hilt]
    exact hinv i j hij hjlt
  · intro j hij hjlen
    rw [List.length_append, List.length_singleton] at hjlen
    exact absurd hjlen (by omega)
  · intro h0 j hij hjlen
    rw [List.length_append, List.length_singleton] at hjlen
    exact absurd hjlen (by omega)

theorem dropLast_heapinv (heap : List Node) (hinv : HeapInv heap) :
    HeapInv heap.dropLast := by
  intro i j hij hjlen
  rw [List.length_dropLast] at hjlen
  have hj : j < heap.length := by omega
  have hi : i < heap.length := by omega
  have hgd : ∀ m : Nat, m < heap.length - 1 → heap.dropLast.getD m default = heap.getD m default := by
    intro m hm
    rw [getD_eq_getElem _ _ _ (by rw [List.length_dropLast]; omega),
      getD_eq_getElem _ _ _ (by omega), List.getElem_dropLast]
  rw [hgd j hjlen, hgd i (by omega)]
  exact hinv i j hij hj

theorem heappop_heapinv (heap : List Node) (h : heap ≠ []) (hinv : HeapInv heap) :
    HeapInv (heappop heap).2 := by
  unfold heappop
  split
  case h_1 heq => exact heapinv_nil
  case h_2 xx xs heq =>
    have hdl := dropLast_heapinv heap hinv
    rw [heq] at hdl
    refine siftup_inv (xx :: xs).length _ 0 (xx :: xs).length _ (by omega) (by simp) (by simp)
      ?_ ?_
    · intro i j hij hjlen hjne hine
      rw [List.length_set] at hjlen
      rw [getD_set_ne _ 0 j _ default (by omega), getD_set_ne _ 0 i _ default (by omega)]
      exact hdl i j hij hjlen
    · intro h0 j hij hjlen
      simp at h0

theorem heappop_root (heap : List Node) (h : heap ≠ []) :
    (heappop heap).1 = heap.getD 0 default := by
  unfold heappop
  split
  case h_1 heq =>
    have hlen : heap.length ≤ 1 := by
      have := congrArg List.length heq
      simp [List.length_dropLast] at this
      omega
    cases heap with
    | nil => exact absurd rfl h
    | cons a t =>
      cases t with
      | nil => simp
      | cons b t2 => simp at hlen
  case h_2 xx xs heq =>
    have hhe : heap = (xx :: xs) ++ [heap.getLast h] := by
      conv_lhs => rw [← List.dropLast_append_getLast h]
      rw [heq]
    conv_rhs => rw [hhe]
    rw [List.getD_append _ _ _ _ (by simp)]
    simp

theorem heappop_min (heap : List Node) (h : heap ≠ []) (hinv : HeapInv heap) :
    ∀ n ∈ heap, (heappop heap).1.f_cost ≤ n.f_cost := by
  intro n hn
  rw [heappop_root heap h]
  obtain ⟨i, hi, rfl⟩ := List.getElem_of_mem hn
  rw [← getD_eq_getElem heap i default hi]
  exact heap_root_min heap hinv i hi

theorem heappop_singleton (n : Node) : heappop [n] = (n, []) := rfl

/-! ## Lemmas: nodes, chains, neighbors -/

@[simp] theorem Node.x_mk (x y g h f : Int) (p : Option Node) :
    (Node.mk x y g h f p).x = x := rfl

@[simp] theorem Node.y_mk (x y g h f : Int) (p : Option Node) :
    (Node.mk x y g h f p).y = y := rfl

@[simp] theorem Node.g_mk (x y g h f : Int) (p : Option Node) :
    (Node.mk x y g h f p).g_cost = g := rfl

@[simp] theorem Node.h_mk (x y g h f : Int) (p : Option Node) :
    (Node.mk x y g h f p).h_cost = h := rfl

@[simp] theorem Node.f_mk (x y g h f : Int) (p : Option Node) :
    (Node.mk x y g h f p).f_cost = f := rfl

@[simp] theorem Node.parent_mk (x y g h f : Int) (p : Option Node) :
    (Node.mk x y g h f p).parent = p := rfl

@[simp] theorem node_pos_mk (x y g h f : Int) (p : Option Node) :
    node_pos (Node.mk x y g h f p) = (x, y) := rfl

@[simp] theorem node_pos_fst (n : Node) : (node_pos n).1 = n.x := rfl

@[simp] theorem node_pos_snd (n : Node) : (node_pos n).2 = n.y := rfl

theorem cell_dist_self (a : Pos) : cell_dist a a = 0 := by
  simp [cell_dist, manhattan_distance]

theorem cell_dist_nonneg (a b : Pos) : 0 ≤ cell_dist a b := by
  simp only [cell_dist, manhattan_distance]
  positivity

theorem cell_dist_triangle (a b c : Pos) : cell_dist a c ≤ cell_dist a b + cell_dist b c := by
  simp only [cell_dist, manhattan_distance, Int.abs_eq_natAbs]
  omega

theorem cell_dist_eq_zero {a b : Pos} (h : cell_dist a b = 0) : a = b := by
  simp only [cell_dist, manhattan_distance, Int.abs_eq_natAbs] at h
  have h1 : a.1 = b.1 := by omega
  have h2 : a.2 = b.2 := by omega
  exact Prod.ext h1 h2

theorem adjacent_cell_dist {a b : Pos} (h : adjacent a b) (c : Pos) :
    cell_dist c b = cell_dist c a + 1 ∨ cell_dist c b = cell_dist c a - 1 := by
  simp only [adjacent, Int.abs_eq_natAbs] at h
  simp only [cell_dist, manhattan_distance, Int.abs_eq_natAbs]
  omega

theorem nodeok_g (pf : AStarPathfinder) (safe : Int → Int → Bool) (start goal : Pos) :
    (n : Node) → NodeOk pf safe start goal n → cell_dist start (node_pos n) ≤ n.g_cost
  | .mk x y g h f none, hok => by
    obtain ⟨hs, hg, -, -⟩ := hok
    simp only [node_pos_mk, Node.g_mk, hg, ← hs]
    rw [cell_dist_self]
  | .mk x y g h f (some p), hok => by
    obtain ⟨hp, hadj, -, -, hg, -, -⟩ := hok
    have ih := nodeok_g pf safe start goal p hp
    have htri := adjacent_cell_dist hadj start
    simp only [node_pos_mk, Node.g_mk, hg]
    omega

theorem walk_parents_eq (pf : AStarPathfinder) :
    (n : Node) → walk_parents pf n = (chain_cells n).map fun c => grid_to_pixel pf c.1 c.2
  | .mk x y g h f none => rfl
  | .mk x y g h f (some p) => by
    rw [walk_parents, chain_cells, List.map_cons, walk_parents_eq pf p]

theorem chain_ne_nil : (n : Node) → chain_cells n ≠ []
  | .mk x y g h f none => by simp [chain_cells]
  | .mk x y g h f (some p) => by simp [chain_cells]

theorem chain_head : (n : Node) → (chain_cells n).head? = some (node_pos n)
  | .mk x y g h f none => rfl
  | .mk x y g h f (some p) => rfl

theorem chain_facts (pf : AStarPathfinder) (safe : Int → Int → Bool) (start goal : Pos) :
    (n : Node) → NodeOk pf safe start goal n →
      ((chain_cells n).length : Int) = n.g_cost + 1 ∧
      (chain_cells n).getLast? = some start ∧
      (∀ c ∈ (chain_cells n).dropLast, safe c.1 c.2 = true ∧ in_bounds pf c) ∧
      List.Chain' (fun a b => adjacent b a) (chain_cells n)
  | .mk x y g h f none, hok => by
    obtain ⟨hs, hg, -, -⟩ := hok
    refine ⟨by simp [chain_cells, hg], by simp [chain_cells, hs], by simp [chain_cells], ?_⟩
    simp [chain_cells]
  | .mk x y g h f (some p), hok => by
    obtain ⟨hp, hadj, hin, hsafe, hg, -, -⟩ := hok
    obtain ⟨ihlen, ihlast, ihdrop, ihchain⟩ := chain_facts pf safe start goal p hp
    have hne := chain_ne_nil p
    refine ⟨?_, ?_, ?_, ?_⟩
    · simp only [chain_cells, List.length_cons, Node.g_mk]
      push_cast
      omega
    · rw [chain_cells, List.getLast?_cons, ihlast]
      simp [hne]
    · intro c hc
      rw [chain_cells, List.dropLast_cons_of_ne_nil hne] at hc
      rcases List.mem_cons.mp hc with rfl | hc
      · exact ⟨hsafe, hin⟩
      · exact ihdrop c hc
    · rw [chain_cells]
      rw [List.chain'_cons']
      refine ⟨?_, ihchain⟩
      intro q hq
      rw [chain_head p] at hq
      cases hq
      exact hadj

theorem mem_get_neighbors (pf : AStarPathfinder) (n nb : Node)
    (h : nb ∈ get_neighbors pf n) :
    nb.parent = none ∧ adjacent (node_pos n) (node_pos nb) ∧ in_bounds pf (node_pos nb) := by
  simp only [get_neighbors, List.mem_filterMap] at h
  obtain ⟨d, hd, hnb⟩ := h
  split at hnb
  case isTrue hcond =>
    cases hnb
    fin_cases hd <;>
      exact ⟨rfl, by
          simp only [adjacent, node_pos_mk, node_pos_fst, node_pos_snd, Int.abs_eq_natAbs]
          omega,
        by simpa [in_bounds, node_pos_mk] using hcond⟩
  case isFalse => cases hnb

theorem get_neighbors_cover (pf : AStarPathfinder) (n : Node) (d : Pos)
    (hadj : adjacent (node_pos n) d) (hin : in_bounds pf d) :
    ∃ nb ∈ get_neighbors pf n, node_pos nb = d := by
  have hcase : (d.1 = n.x - 1 ∧ d.2 = n.y) ∨ (d.1 = n.x + 1 ∧ d.2 = n.y) ∨
      (d.1 = n.x ∧ d.2 = n.y - 1) ∨ (d.1 = n.x ∧ d.2 = n.y + 1) := by
    simp only [adjacent, node_pos_fst, node_pos_snd, Int.abs_eq_natAbs] at hadj
    omega
  obtain ⟨hin1, hin2, hin3, hin4⟩ := hin
  rcases hcase with ⟨h1, h2⟩ | ⟨h1, h2⟩ | ⟨h1, h2⟩ | ⟨h1, h2⟩
  · refine ⟨Node.mk (n.x + -1) (n.y + 0) 0 0 0 none, List.mem_filterMap.mpr
      ⟨(-1, 0), by simp, ?_⟩, ?_⟩
    · show (if 0 ≤ n.x + (-1 : Int) ∧ n.x + (-1 : Int) < pf.grid_cols ∧
          0 ≤ n.y + (0 : Int) ∧ n.y + (0 : Int) < pf.grid_rows then
          some (Node.mk (n.x + (-1 : Int)) (n.y + (0 : Int)) 0 0 0 none) else none) = _
      rw [if_pos ⟨by omega, by omega, by omega, by omega⟩]
    · rw [node_pos_mk]
      exact Prod.ext (by omega) (by omega)
  · refine ⟨Node.mk (n.x + 1) (n.y + 0) 0 0 0 none, List.mem_filterMap.mpr
      ⟨(1, 0), by simp, ?_⟩, ?_⟩
    · show (if 0 ≤ n.x + (1 : Int) ∧ n.x + (1 : Int) < pf.grid_cols ∧
          0 ≤ n.y + (0 : Int) ∧ n.y + (0 : Int) < pf.grid_rows then
          some (Node.mk (n.x + (1 : Int)) (n.y + (0 : Int)) 0 0 0 none) else none) = _
      rw [if_pos ⟨by omega, by omega, by omega, by omega⟩]
    · rw [node_pos_mk]
      exact Prod.ext (by omega) (by omega)
  · refine ⟨Node.mk (n.x + 0) (n.y + -1) 0 0 0 none, List.mem_filterMap.mpr
      ⟨(0, -1), by simp, ?_⟩, ?_⟩
    · show (if 0 ≤ n.x + (0 : Int) ∧ n.x + (0 : Int) < pf.grid_cols ∧
          0 ≤ n.y + (-1 : Int) ∧ n.y + (-1 : Int) < pf.grid_rows then
          some (Node.mk (n.x + (0 : Int)) (n.y + (-1 : Int)) 0 0 0 none) else none) = _
      rw [if_pos ⟨by omega, by omega, by omega, by omega⟩]
    · rw [node_pos_mk]
      exact Prod.ext (by omega) (by omega)
  · refine ⟨Node.mk (n.x + 0) (n.y + 1) 0 0 0 none, List.mem_filterMap.mpr
      ⟨(0, 1), by simp, ?_⟩, ?_⟩
    · show (if 0 ≤ n.x + (0 : Int) ∧ n.x + (0 : Int) < pf.grid_cols ∧
          0 ≤ n.y + (1 : Int) ∧ n.y + (1 : Int) < pf.grid_rows then
          some (Node.mk (n.x + (0 : Int)) (n.y + (1 : Int)) 0 0 0 none) else none) = _
      rw [if_pos ⟨by omega, by omega, by omega, by omega⟩]
    · rw [node_pos_mk]
      exact Prod.ext (by omega) (by omega)

/-! ## Lemmas: one neighbor-processing step and the neighbor fold -/

theorem mem_heappush {os : List Node} {v m : Node} : m ∈ heappush os v ↔ m = v ∨ m ∈ os := by
  rw [(heappush_perm os v).mem_iff]
  simp

theorem mem_open_cells {os : List Node} {c : Pos} :
    c ∈ open_cells os ↔ ∃ m ∈ os, node_pos m = c := by
  simp [open_cells, List.mem_map]

theorem open_cells_heappush_perm (os : List Node) (v : Node) :
    List.Perm (open_cells (heappush os v)) (node_pos v :: open_cells os) := by
  have := (heappush_perm os v).map node_pos
  simpa [open_cells] using this

theorem heappop_mem_rest {heap : List Node} (h : heap ≠ []) {m : Node}
    (hm : m ∈ (heappop heap).2) : m ∈ heap :=
  (heappop_perm heap h).mem_iff.mpr (List.mem_cons_of_mem _ hm)

theorem open_cells_heappop_perm (heap : List Node) (h : heap ≠ []) :
    List.Perm (open_cells heap)
      (node_pos (heappop heap).1 :: open_cells (heappop heap).2) := by
  have := (heappop_perm heap h).map node_pos
  simpa [open_cells] using this

theorem process_neighbor_cases (pf : AStarPathfinder) (safe : Int → Int → Bool) (goal : Pos)
    (cur : Node) (closed2 : List Pos) (os : List Node) (nb : Node) :
    process_neighbor pf safe goal cur closed2 os nb = os ∨
    (node_pos nb ∉ closed2 ∧ safe nb.x nb.y = true ∧
     (∀ m ∈ os, ¬(m.x = nb.x ∧ m.y = nb.y)) ∧
     process_neighbor pf safe goal cur closed2 os nb =
       heappush os (Node.mk nb.x nb.y (cur.g_cost + 1)
         (manhattan_distance nb.x nb.y goal.1 goal.2)
         (cur.g_cost + 1 + manhattan_distance nb.x nb.y goal.1 goal.2) (some cur))) := by
  simp only [process_neighbor]
  split
  case isTrue => exact Or.inl rfl
  case isFalse hmem =>
    split
    case isTrue => exact Or.inl rfl
    case isFalse hsafe =>
      have hsafe2 : safe nb.x nb.y = true := by
        revert hsafe
        cases safe nb.x nb.y <;> simp
      cases hfind : os.find? fun node => decide (node.x = nb.x ∧ node.y = nb.y) with
      | none =>
        refine Or.inr ⟨hmem, hsafe2, ?_, ?_⟩
        · intro m hm
          have := List.find?_eq_none.mp hfind m hm
          simpa using this
        · simp only [hfind]
      | some m => exact Or.inl (by simp only [hfind])

theorem fold_process (pf : AStarPathfinder) (safe : Int → Int → Bool) (start goal : Pos)
    (cur : Node) (closed2 : List Pos) (hcur : NodeOk pf safe start goal cur) :
    ∀ (nbs : List Node) (os : List Node),
      (∀ nb ∈ nbs, nb ∈ get_neighbors pf cur) →
      (∀ n ∈ os, NodeOk pf safe start goal n) →
      (open_cells os).Nodup →
      (∀ n ∈ os, node_pos n ∉ closed2) →
      HeapInv os →
      (∀ n ∈ nbs.foldl (process_neighbor pf safe goal cur closed2) os,
          NodeOk pf safe start goal n) ∧
      (open_cells (nbs.foldl (process_neighbor pf safe goal cur closed2) os)).Nodup ∧
      (∀ n ∈ nbs.foldl (process_neighbor pf safe goal cur closed2) os,
          node_pos n ∉ closed2) ∧
      HeapInv (nbs.foldl (process_neighbor pf safe goal cur closed2) os) ∧
      (∀ m ∈ os, m ∈ nbs.foldl (process_neighbor pf safe goal cur closed2) os) ∧
      (∀ m ∈ nbs.foldl (process_neighbor pf safe goal cur closed2) os,
          m ∈ os ∨ m.parent = some cur) ∧
      (∀ nb ∈ nbs, safe nb.x nb.y = true →
          node_pos nb ∈ open_cells (nbs.foldl (process_neighbor pf safe goal cur closed2) os) ∨
          node_pos nb ∈ closed2) := by
  intro nbs
  induction nbs with
  | nil =>
    intro os hnbs hok hnodup hdisj hheap
    exact ⟨hok, hnodup, hdisj, hheap, fun m hm => hm, fun m hm => Or.inl hm, by simp⟩
  | cons nb nbs ih =>
    intro os hnbs hok hnodup hdisj hheap
    rw [List.foldl_cons]
    have hnbmem := hnbs nb (List.mem_cons_self _ _)
    obtain ⟨hpar, hadj, hbnd⟩ := mem_get_neighbors pf cur nb hnbmem
    rcases process_neighbor_cases pf safe goal cur closed2 os nb with heq |
      ⟨hncl, hsf, hfresh, heq⟩
    · rw [heq]
      obtain ⟨a1, a2, a3, a4, a5, a6, a7⟩ :=
        ih os (fun x hx => hnbs x (List.mem_cons_of_mem _ hx)) hok hnodup hdisj hheap
      refine ⟨a1, a2, a3, a4, a5, a6, ?_⟩
      intro q hq hqs
      rcases List.mem_cons.mp hq with rfl | hq2
      · -- the head neighbor was skipped: it is in the closed set or already open
        by_cases hc : (q.x, q.y) ∈ closed2
        · exact Or.inr hc
        · -- not closed and safe, so the skip must come from an existing open node
          left
          simp only [process_neighbor] at heq
          rw [if_neg hc, if_neg (by simp [hqs])] at heq
          cases hfind : os.find? fun node => decide (node.x = q.x ∧ node.y = q.y) with
          | none =>
            simp only [hfind] at heq
            -- pushing strictly grows the heap, contradiction with heq : push = os
            have := congrArg List.length heq
            rw [(heappush_perm _ _).length_eq] at this
            simp at this
          | some m =>
            have hmm := List.find?_some hfind
            have hmem := List.mem_of_find?_eq_some hfind
            simp only [decide_eq_true_eq] at hmm
            have hnp : node_pos m = node_pos q := by
              simp [node_pos, hmm.1, hmm.2]
            exact mem_open_cells.mpr ⟨m, a5 m hmem, hnp⟩
      · exact a7 q hq2 hqs
    · rw [heq]
      have hvok : NodeOk pf safe start goal (Node.mk nb.x nb.y (cur.g_cost + 1)
          (manhattan_distance nb.x nb.y goal.1 goal.2)
          (cur.g_cost + 1 + manhattan_distance nb.x nb.y goal.1 goal.2) (some cur)) :=
        ⟨hcur, hadj, hbnd, hsf, rfl, rfl, rfl⟩
      have hfreshc : node_pos (Node.mk nb.x nb.y (cur.g_cost + 1)
          (manhattan_distance nb.x nb.y goal.1 goal.2)
          (cur.g_cost + 1 + manhattan_distance nb.x nb.y goal.1 goal.2) (some cur)) ∉
          open_cells os := by
        rw [node_pos_mk, mem_open_cells]
        rintro ⟨m, hm, hmeq⟩
        exact hfresh m hm ⟨congrArg Prod.fst hmeq, congrArg Prod.snd hmeq⟩
      obtain ⟨a1, a2, a3, a4, a5, a6, a7⟩ := ih
        (heappush os (Node.mk nb.x nb.y (cur.g_cost + 1)
          (manhattan_distance nb.x nb.y goal.1 goal.2)
          (cur.g_cost + 1 + manhattan_distance nb.x nb.y goal.1 goal.2) (some cur)))
        (fun x hx => hnbs x (List.mem_cons_of_mem _ hx))
        (by
          intro m hm
          rcases mem_heappush.mp hm with rfl | hm2
          · exact hvok
          · exact hok m hm2)
        (by
          refine ((open_cells_heappush_perm os _).nodup_iff).mpr ?_
          exact List.nodup_cons.mpr ⟨hfreshc, hnodup⟩)
        (by
          intro m hm
          rcases mem_heappush.mp hm with rfl | hm2
          · simpa using hncl
          · exact hdisj m hm2)
        (heappush_heapinv os _ hheap)
      refine ⟨a1, a2, a3, a4, ?_, ?_, ?_⟩
      · intro m hm
        exact a5 m (mem_heappush.mpr (Or.inr hm))
      · intro m hm
        rcases a6 m hm with hm2 | hp
        · rcases mem_heappush.mp hm2 with rfl | hm3
          · exact Or.inr rfl
          · exact Or.inl hm3
        · exact Or.inr hp
      · intro q hq hqs
        rcases List.mem_cons.mp hq with rfl | hq2
        · left
          have : node_pos q ∈ open_cells (heappush os (Node.mk q.x q.y (cur.g_cost + 1)
              (manhattan_distance q.x q.y goal.1 goal.2)
              (cur.g_cost + 1 + manhattan_distance q.x q.y goal.1 goal.2) (some cur))) := by
            rw [mem_open_cells]
            exact ⟨_, mem_heappush.mpr (Or.inl rfl), node_pos_mk _ _ _ _ _ _⟩
          rw [mem_open_cells] at this ⊢
          obtain ⟨m, hm, hmeq⟩ := this
          exact ⟨m, a5 m hm, hmeq⟩
        · exact a7 q hq2 hqs

/-! ## Lemmas: one loop iteration preserves the search invariant -/

theorem nodeok_pos (pf : AStarPathfinder) (safe : Int → Int → Bool) (start goal : Pos) :
    (n : Node) → NodeOk pf safe start goal n → node_pos n = start ∨ in_bounds pf (node_pos n)
  | .mk x y g h f none, hok => Or.inl (by rw [node_pos_mk]; exact hok.1)
  | .mk x y g h f (some p), hok => Or.inr (by rw [node_pos_mk]; exact hok.2.2.1)

theorem nodeok_safe_or_start (pf : AStarPathfinder) (safe : Int → Int → Bool)
    (start goal : Pos) :
    (n : Node) → NodeOk pf safe start goal n → node_pos n = start ∨ safe n.x n.y = true
  | .mk x y g h f none, hok => Or.inl (by rw [node_pos_mk]; exact hok.1)
  | .mk x y g h f (some p), hok => Or.inr hok.2.2.2.1

theorem astar_step (pf : AStarPathfinder) (safe : Int → Int → Bool) (start goal : Pos)
    (open_set : List Node) (closed_set : List Pos) (hne : open_set ≠ [])
    (hinv : SearchInv pf safe start goal open_set closed_set) :
    SearchInv pf safe start goal
      ((get_neighbors pf (heappop open_set).1).foldl
        (process_neighbor pf safe goal (heappop open_set).1
          (node_pos (heappop open_set).1 :: closed_set))
        (heappop open_set).2)
      (node_pos (heappop open_set).1 :: closed_set) := by
  have hcurmem : (heappop open_set).1 ∈ open_set := heappop_mem _ hne
  have hcurok := hinv.node_ok _ hcurmem
  have hcells := open_cells_heappop_perm open_set hne
  have hcons : (node_pos (heappop open_set).1 :: open_cells (heappop open_set).2).Nodup :=
    hcells.nodup_iff.mp hinv.coords_nodup
  have hcur_notin : node_pos (heappop open_set).1 ∉ open_cells (heappop open_set).2 :=
    (List.nodup_cons.mp hcons).1
  have hrest_nodup : (open_cells (heappop open_set).2).Nodup := (List.nodup_cons.mp hcons).2
  have hrest_ok : ∀ n ∈ (heappop open_set).2, NodeOk pf safe start goal n := fun n hn =>
    hinv.node_ok n (heappop_mem_rest hne hn)
  have hdisj2 : ∀ n ∈ (heappop open_set).2,
      node_pos n ∉ node_pos (heappop open_set).1 :: closed_set := by
    intro n hn
    rw [List.mem_cons]
    rintro (heq | hmem)
    · exact hcur_notin (heq ▸ mem_open_cells.mpr ⟨n, hn, rfl⟩)
    · exact hinv.coords_disj n (heappop_mem_rest hne hn) hmem
  obtain ⟨a1, a2, a3, a4, a5, a6, a7⟩ := fold_process pf safe start goal
    (heappop open_set).1 (node_pos (heappop open_set).1 :: closed_set) hcurok
    (get_neighbors pf (heappop open_set).1) (heappop open_set).2
    (fun nb h => h) hrest_ok hrest_nodup hdisj2 (heappop_heapinv open_set hne hinv.heap_ok)
  refine ⟨a1, a2, a3, ?_, ?_, a4, ?_, ?_, ?_⟩
  · -- closed_range
    intro c hc
    rcases List.mem_cons.mp hc with rfl | hc2
    · exact nodeok_pos pf safe start goal _ hcurok
    · exact hinv.closed_range c hc2
  · -- closed_nodup
    exact List.nodup_cons.mpr ⟨hinv.coords_disj _ hcurmem, hinv.closed_nodup⟩
  · -- frontier
    intro c hc d hadj hin hsafe
    rcases List.mem_cons.mp hc with rfl | hc2
    · obtain ⟨nb, hnbmem, hnbpos⟩ := get_neighbors_cover pf (heappop open_set).1 d hadj hin
      have hsafe2 : safe nb.x nb.y = true := by
        have hxy : (nb.x, nb.y) = d := hnbpos
        rw [show nb.x = d.1 from congrArg Prod.fst hxy,
          show nb.y = d.2 from congrArg Prod.snd hxy]
        exact hsafe
      rcases a7 nb hnbmem hsafe2 with hopen | hclosed
      · exact Or.inl (hnbpos ▸ hopen)
      · exact Or.inr (hnbpos ▸ hclosed)
    · rcases hinv.frontier c hc2 d hadj hin hsafe with hopen | hclosed
      · have hm2 := hcells.mem_iff.mp hopen
        rcases List.mem_cons.mp hm2 with heq | hrest
        · exact Or.inr (List.mem_cons.mpr (Or.inl heq))
        · obtain ⟨m, hm, hmp⟩ := mem_open_cells.mp hrest
          exact Or.inl (mem_open_cells.mpr ⟨m, a5 m hm, hmp⟩)
      · exact Or.inr (List.mem_cons.mpr (Or.inr hclosed))
  · -- empty_case is vacuous for a cons
    intro h
    simp at h
  · -- start_closed
    intro h
    by_cases hcs : closed_set = []
    · have hop := hinv.empty_case hcs
      have hpop : (heappop open_set).1 = Node.mk start.1 start.2 0 0 0 none := by
        rw [hop, heappop_singleton]
      refine List.mem_cons.mpr (Or.inl ?_)
      rw [hpop, node_pos_mk]
    · exact List.mem_cons.mpr (Or.inr (hinv.start_closed hcs))

theorem closed_card_le (pf : AStarPathfinder) (start : Pos) (closed : List Pos)
    (hnodup : closed.Nodup) (hrange : ∀ c ∈ closed, c = start ∨ in_bounds pf c) :
    closed.length ≤ (allowed_cells pf start).card := by
  have hsub : closed.toFinset ⊆ allowed_cells pf start := by
    intro c hc
    rw [List.mem_toFinset] at hc
    rcases hrange c hc with rfl | hin
    · exact Finset.mem_insert_self _ _
    · refine Finset.mem_insert_of_mem ?_
      rw [Finset.mem_product]
      obtain ⟨h1, h2, h3, h4⟩ := hin
      constructor <;> rw [Finset.mem_Icc] <;> constructor <;> omega
  calc closed.length = closed.toFinset.card := (List.toFinset_card_of_nodup hnodup).symm
    _ ≤ _ := Finset.card_le_card hsub

theorem astar_master (pf : AStarPathfinder) (safe : Int → Int → Bool) (start goal : Pos) :
    ∀ (fuel : Nat) (open_set : List Node) (closed_set : List Pos),
      SearchInv pf safe start goal open_set closed_set →
      (allowed_cells pf start).card + 1 ≤ fuel + closed_set.length →
      ∃ res closedF, astar_loop pf safe goal fuel open_set closed_set = some (res, closedF) ∧
        closedF.Nodup ∧
        ∀ p, res = some p → ∃ n : Node, NodeOk pf safe start goal n ∧
          node_pos n = goal ∧ p = reconstruct_path pf n := by
  intro fuel
  induction fuel with
  | zero =>
    intro os cs hinv hfuel
    have := closed_card_le pf start cs hinv.closed_nodup hinv.closed_range
    omega
  | succ fuel ih =>
    intro os cs hinv hfuel
    by_cases hemp : os.isEmpty
    · refine ⟨none, cs, ?_, hinv.closed_nodup, by simp⟩
      rw [astar_loop, if_pos hemp]
    · have hne : os ≠ [] := by
        cases os
        · simp at hemp
        · simp
      by_cases hgoal : (heappop os).1.x = goal.1 ∧ (heappop os).1.y = goal.2
      · refine ⟨some (reconstruct_path pf (heappop os).1), node_pos (heappop os).1 :: cs,
          ?_, ?_, ?_⟩
        · simp only [astar_loop]
          rw [if_neg (by simp [hemp]), if_pos hgoal]
          rfl
        · exact List.nodup_cons.mpr
            ⟨hinv.coords_disj _ (heappop_mem _ hne), hinv.closed_nodup⟩
        · intro p hp
          cases hp
          exact ⟨(heappop os).1, hinv.node_ok _ (heappop_mem _ hne),
            Prod.ext hgoal.1 hgoal.2, rfl⟩
      · have hstep := astar_step pf safe start goal os cs hne hinv
        obtain ⟨res, closedF, hloop, hnodup, hres⟩ := ih _ _ hstep (by simp; omega)
        refine ⟨res, closedF, ?_, hnodup, hres⟩
        simp only [astar_loop]
        rw [if_neg (by simp [hemp]), if_neg hgoal]
        exact hloop

/-! ## Lemmas: entering the loop from find_path -/

theorem heappush_nil (n : Node) : heappush [] n = [n] := rfl

theorem searchinv_init (pf : AStarPathfinder) (safe : Int → Int → Bool) (start goal : Pos) :
    SearchInv pf safe start goal (heappush [] (Node.mk start.1 start.2 0 0 0 none)) [] := by
  rw [heappush_nil]
  refine ⟨?_, ?_, ?_, ?_, ?_, ?_, ?_, ?_, ?_⟩
  · intro n hn
    rcases List.mem_singleton.mp hn with rfl
    exact ⟨rfl, rfl, rfl, rfl⟩
  · simp [open_cells]
  · simp
  · simp
  · simp
  · intro i j hij hjlen
    simp only [List.length_singleton] at hjlen
    omega
  · simp
  · intro h
    rfl
  · intro h
    exact absurd rfl h

theorem astar_fuel_ge (pf : AStarPathfinder) (start : Pos) :
    (allowed_cells pf start).card + 1 ≤ astar_fuel pf := by
  have hcard : ((Finset.Icc (0 : Int) (pf.grid_cols - 1)) ×ˢ
      (Finset.Icc (0 : Int) (pf.grid_rows - 1))).card
      = (pf.grid_cols - 1 + 1 - 0).toNat * (pf.grid_rows - 1 + 1 - 0).toNat := by
    rw [Finset.card_product, Int.card_Icc, Int.card_Icc]
  have hins := Finset.card_insert_le start
    ((Finset.Icc (0 : Int) (pf.grid_cols - 1)) ×ˢ (Finset.Icc (0 : Int) (pf.grid_rows - 1)))
  have hmul : pf.grid_cols.toNat * pf.grid_rows.toNat ≤ (pf.grid_cols * pf.grid_rows).toNat := by
    rcases le_or_lt 0 pf.grid_cols with h | h
    · rcases le_or_lt 0 pf.grid_rows with h2 | h2
      · have hc := Int.toNat_of_nonneg h
        have hr := Int.toNat_of_nonneg h2
        have : ((pf.grid_cols.toNat * pf.grid_rows.toNat : Nat) : Int)
            = pf.grid_cols * pf.grid_rows := by
          push_cast
          rw [hc, hr]
        omega
      · have : pf.grid_rows.toNat = 0 := by omega
        simp [this]
    · have : pf.grid_cols.toNat = 0 := by omega
      simp [this]
  unfold allowed_cells astar_fuel
  have h1 : (pf.grid_cols - 1 + 1 - 0).toNat = pf.grid_cols.toNat := by omega
  have h2 : (pf.grid_rows - 1 + 1 - 0).toNat = pf.grid_rows.toNat := by omega
  rw [h1, h2] at hcard
  omega

theorem find_path_cases (pf : AStarPathfinder) (start_pos goal_pos : Pos) (body : List Pos) :
    find_path pf start_pos goal_pos body = none ∨
    ∃ n : Node, NodeOk pf (fun x y => is_safe_position pf x y body true)
        (pixel_to_grid pf start_pos.1 start_pos.2) (pixel_to_grid pf goal_pos.1 goal_pos.2) n ∧
      node_pos n = pixel_to_grid pf goal_pos.1 goal_pos.2 ∧
      find_path pf start_pos goal_pos body = some (reconstruct_path pf n) := by
  obtain ⟨res, closedF, hloop, hnodup, hres⟩ := astar_master pf
    (fun x y => is_safe_position pf x y body true)
    (pixel_to_grid pf start_pos.1 start_pos.2) (pixel_to_grid pf goal_pos.1 goal_pos.2)
    (astar_fuel pf)
    (heappush [] (Node.mk (pixel_to_grid pf start_pos.1 start_pos.2).1
      (pixel_to_grid pf start_pos.1 start_pos.2).2 0 0 0 none))
    [] (searchinv_init pf _ _ _)
    (by
      have := astar_fuel_ge pf (pixel_to_grid pf start_pos.1 start_pos.2)
      simpa using this)
  cases res with
  | none =>
    left
    simp only [find_path]
    rw [hloop]
  | some p =>
    right
    obtain ⟨n, hok, hpos, hp⟩ := hres p rfl
    refine ⟨n, hok, hpos, ?_⟩
    simp only [find_path]
    rw [hloop, hp]

/-! ## Lemmas: the reconstructed path -/

theorem reconstruct_eq (pf : AStarPathfinder) (n : Node) :
    reconstruct_path pf n = ((chain_cells n).map fun c => grid_to_pixel pf c.1 c.2).reverse := by
  rw [reconstruct_path, walk_parents_eq]

theorem grid_pixel_roundtrip (pf : AStarPathfinder) (h : pf.cell_size ≠ 0) (c : Pos) :
    pixel_to_grid pf (grid_to_pixel pf c.1 c.2).1 (grid_to_pixel pf c.1 c.2).2 = c := by
  simp only [pixel_to_grid, grid_to_pixel]
  rw [Int.mul_fdiv_cancel _ h, Int.mul_fdiv_cancel _ h]

theorem reconstruct_length (pf : AStarPathfinder) (safe : Int → Int → Bool)
    (start goal : Pos) (n : Node) (hok : NodeOk pf safe start goal n) :
    ((reconstruct_path pf n).length : Int) = n.g_cost + 1 := by
  rw [reconstruct_eq, List.length_reverse, List.length_map]
  exact (chain_facts pf safe start goal n hok).1

theorem reconstruct_drop (pf : AStarPathfinder) (safe : Int → Int → Bool)
    (start goal : Pos) (n : Node) (hok : NodeOk pf safe start goal n) :
    ∀ c ∈ (reconstruct_path pf n).drop 1, ∃ cell : Pos,
      c = grid_to_pixel pf cell.1 cell.2 ∧ safe cell.1 cell.2 = true ∧ in_bounds pf cell := by
  intro c hc
  rw [reconstruct_eq, List.drop_one, List.tail_reverse] at hc
  rw [List.mem_reverse] at hc
  rw [← List.map_dropLast] at hc
  obtain ⟨cell, hcell, rfl⟩ := List.mem_map.mp hc
  exact ⟨cell, rfl, ((chain_facts pf safe start goal n hok).2.2.1 cell hcell)⟩

theorem reconstruct_chain (pf : AStarPathfinder) (safe : Int → Int → Bool)
    (start goal : Pos) (n : Node) (hok : NodeOk pf safe start goal n) :
    (reconstruct_path pf n).Chain' fun a b => ∃ ca cb : Pos,
      a = grid_to_pixel pf ca.1 ca.2 ∧ b = grid_to_pixel pf cb.1 cb.2 ∧ adjacent ca cb := by
  have hch := (chain_facts pf safe start goal n hok).2.2.2
  rw [reconstruct_eq, List.chain'_reverse, List.chain'_map]
  refine List.Chain'.imp ?_ hch
  intro a b hab
  exact ⟨b, a, rfl, rfl, hab⟩

theorem reconstruct_head (pf : AStarPathfinder) (safe : Int → Int → Bool)
    (start goal : Pos) (n : Node) (hok : NodeOk pf safe start goal n) :
    (reconstruct_path pf n).getD 0 (0, 0) = grid_to_pixel pf start.1 start.2 := by
  have hlast := (chain_facts pf safe start goal n hok).2.1
  rw [reconstruct_eq]
  have hne : (chain_cells n).map (fun c => grid_to_pixel pf c.1 c.2) ≠ [] := by
    simp [chain_ne_nil n]
  rw [getD_eq_getElem _ 0 _ (by simp [List.length_reverse]; cases hl : chain_cells n with
    | nil => exact absurd hl (chain_ne_nil n)
    | cons a t => simp)]
  rw [List.getElem_reverse]
  rw [List.getElem_map]
  have : (chain_cells n).getLast? = some start := hlast
  rw [List.getLast?_eq_getElem?] at this
  have hlen : (chain_cells n).length - 1 < (chain_cells n).length := by
    cases hl : chain_cells n with
    | nil => exact absurd hl (chain_ne_nil n)
    | cons a t => simp
  rw [List.getElem?_eq_getElem hlen] at this
  have heq : (chain_cells n)[(chain_cells n).length - 1] = start := by
    exact Option.some.inj this
  simp only [List.length_map, Nat.sub_zero]
  rw [heq]

/-! ## Lemmas: optimality of the search on an unobstructed grid -/

theorem nodeok_root (pf : AStarPathfinder) (safe : Int → Int → Bool) (start goal : Pos) :
    (n : Node) → NodeOk pf safe start goal n → n.parent = none →
      node_pos n = start ∧ n.g_cost = 0 ∧ n.f_cost = 0
  | .mk x y g h f none, hok, _ => ⟨by rw [node_pos_mk]; exact hok.1, hok.2.1, hok.2.2.2⟩
  | .mk x y g h f (some p), hok, hpar => by simp at hpar

theorem nodeok_parent (pf : AStarPathfinder) (safe : Int → Int → Bool) (start goal : Pos) :
    (n : Node) → NodeOk pf safe start goal n → ∀ p : Node, n.parent = some p →
      NodeOk pf safe start goal p ∧ adjacent (node_pos p) (node_pos n) ∧
      n.g_cost = p.g_cost + 1 ∧ n.h_cost = cell_dist (node_pos n) goal ∧
      n.f_cost = n.g_cost + n.h_cost
  | .mk x y g h f none, hok, p, hpar => by simp at hpar
  | .mk x y g h f (some q), hok, p, hpar => by
    have hqp : q = p := by simpa using hpar
    subst hqp
    exact ⟨hok.1, by rw [node_pos_mk]; exact hok.2.1,
      by rw [Node.g_mk]; exact hok.2.2.2.2.1,
      by rw [Node.h_mk, node_pos_mk]; exact hok.2.2.2.2.2.1,
      by rw [Node.f_mk, Node.g_mk, Node.h_mk]; exact hok.2.2.2.2.2.2⟩

theorem list_argmax (f : Pos → Int) : ∀ (l : List Pos), l ≠ [] →
    ∃ a ∈ l, ∀ b ∈ l, f b ≤ f a
  | [], h => absurd rfl h
  | [a], _ => ⟨a, by simp, by simp⟩
  | a :: b :: t, _ => by
    obtain ⟨m, hm, hmax⟩ := list_argmax f (b :: t) (by simp)
    rcases le_or_lt (f m) (f a) with hle | hlt
    · refine ⟨a, by simp, ?_⟩
      intro c hc
      rcases List.mem_cons.mp hc with rfl | hc2
      · exact le_refl _
      · exact le_trans (hmax c hc2) hle
    · refine ⟨m, List.mem_cons.mpr (Or.inr hm), ?_⟩
      intro c hc
      rcases List.mem_cons.mp hc with rfl | hc2
      · exact le_of_lt hlt
      · exact hmax c hc2

theorem step_toward_goal (s g c : Pos)
    (hS : cell_dist s c + cell_dist c g = cell_dist s g) (hne : c ≠ g) :
    ∃ d : Pos, adjacent c d ∧ cell_dist s d = cell_dist s c + 1 ∧
      cell_dist s d + cell_dist d g = cell_dist s g ∧
      ∀ pf : AStarPathfinder, in_bounds pf s → in_bounds pf g → in_bounds pf d := by
  have hcc : c.1 ≠ g.1 ∨ c.2 ≠ g.2 := by
    by_contra hcon
    push_neg at hcon
    exact hne (Prod.ext hcon.1 hcon.2)
  simp only [cell_dist, manhattan_distance, Int.abs_eq_natAbs] at hS ⊢
  by_cases hx : c.1 = g.1
  · have hy : c.2 ≠ g.2 := by tauto
    rcases lt_or_gt_of_ne hy with hlt | hgt
    · refine ⟨(c.1, c.2 + 1), ?_, by omega, by omega, ?_⟩
      · simp only [adjacent, Int.abs_eq_natAbs]
        omega
      · intro pf hs hg
        obtain ⟨a1, a2, a3, a4⟩ := hs
        obtain ⟨b1, b2, b3, b4⟩ := hg
        exact ⟨by omega, by omega, by omega, by omega⟩
    · refine ⟨(c.1, c.2 - 1), ?_, by omega, by omega, ?_⟩
      · simp only [adjacent, Int.abs_eq_natAbs]
        omega
      · intro pf hs hg
        obtain ⟨a1, a2, a3, a4⟩ := hs
        obtain ⟨b1, b2, b3, b4⟩ := hg
        exact ⟨by omega, by omega, by omega, by omega⟩
  · rcases lt_or_gt_of_ne hx with hlt | hgt
    · refine ⟨(c.1 + 1, c.2), ?_, by omega, by omega, ?_⟩
      · simp only [adjacent, Int.abs_eq_natAbs]
        omega
      · intro pf hs hg
        obtain ⟨a1, a2, a3, a4⟩ := hs
        obtain ⟨b1, b2, b3, b4⟩ := hg
        exact ⟨by omega, by omega, by omega, by omega⟩
    · refine ⟨(c.1 - 1, c.2), ?_, by omega, by omega, ?_⟩
      · simp only [adjacent, Int.abs_eq_natAbs]
        omega
      · intro pf hs hg
        obtain ⟨a1, a2, a3, a4⟩ := hs
        obtain ⟨b1, b2, b3, b4⟩ := hg
        exact ⟨by omega, by omega, by omega, by omega⟩

theorem step_toward_start (s c : Pos) (hne : c ≠ s) :
    ∃ d : Pos, adjacent d c ∧ cell_dist s d + 1 = cell_dist s c ∧
      ∀ pf : AStarPathfinder, in_bounds pf s → in_bounds pf c → in_bounds pf d := by
  have hcc : c.1 ≠ s.1 ∨ c.2 ≠ s.2 := by
    by_contra hcon
    push_neg at hcon
    exact hne (Prod.ext hcon.1 hcon.2)
  simp only [cell_dist, manhattan_distance, Int.abs_eq_natAbs]
  by_cases hx : c.1 = s.1
  · have hy : c.2 ≠ s.2 := by tauto
    rcases lt_or_gt_of_ne hy with hlt | hgt
    · refine ⟨(c.1, c.2 + 1), ?_, by omega, ?_⟩
      · simp only [adjacent, Int.abs_eq_natAbs]
        omega
      · intro pf hs hg
        obtain ⟨a1, a2, a3, a4⟩ := hs
        obtain ⟨b1, b2, b3, b4⟩ := hg
        exact ⟨by omega, by omega, by omega, by omega⟩
    · refine ⟨(c.1, c.2 - 1), ?_, by omega, ?_⟩
      · simp only [adjacent, Int.abs_eq_natAbs]
        omega
      · intro pf hs hg
        obtain ⟨a1, a2, a3, a4⟩ := hs
        obtain ⟨b1, b2, b3, b4⟩ := hg
        exact ⟨by omega, by omega, by omega, by omega⟩
  · rcases lt_or_gt_of_ne hx with hlt | hgt
    · refine ⟨(c.1 + 1, c.2), ?_, by omega, ?_⟩
      · simp only [adjacent, Int.abs_eq_natAbs]
        omega
      · intro pf hs hg
        obtain ⟨a1, a2, a3, a4⟩ := hs
        obtain ⟨b1, b2, b3, b4⟩ := hg
        exact ⟨by omega, by omega, by omega, by omega⟩
    · refine ⟨(c.1 - 1, c.2), ?_, by omega, ?_⟩
      · simp only [adjacent, Int.abs_eq_natAbs]
        omega
      · intro pf hs hg
        obtain ⟨a1, a2, a3, a4⟩ := hs
        obtain ⟨b1, b2, b3, b4⟩ := hg
        exact ⟨by omega, by omega, by omega, by omega⟩

theorem closed_all (pf : AStarPathfinder) (safe : Int → Int → Bool) (start goal : Pos)
    (closed : List Pos) (hinv : SearchInv pf safe start goal [] closed)
    (hall : ∀ x y : Int, safe x y = true) (hsin : in_bounds pf start) :
    ∀ c : Pos, in_bounds pf c → c ∈ closed := by
  have hcne : closed ≠ [] := by
    intro hc
    have := hinv.empty_case hc
    simp at this
  have hstart : start ∈ closed := hinv.start_closed hcne
  suffices H : ∀ k : Nat, ∀ c : Pos, in_bounds pf c → (cell_dist start c).toNat = k →
      c ∈ closed by
    intro c hc
    exact H (cell_dist start c).toNat c hc rfl
  intro k
  induction k using Nat.strong_induction_on with
  | _ k ih =>
    intro c hc hk
    by_cases hcs : c = start
    · exact hcs ▸ hstart
    · obtain ⟨d, hadj, hdist, hbnd⟩ := step_toward_start start c hcs
      have hd0 := cell_dist_nonneg start d
      have hc0 := cell_dist_nonneg start c
      have hdin := hbnd pf hsin hc
      have hdcl : d ∈ closed := ih (cell_dist start d).toNat (by omega) d hdin (by rfl)
      rcases hinv.frontier d hdcl c hadj hc (hall c.1 c.2) with hop | hcl
      · simp [open_cells] at hop
      · exact hcl

theorem opt_pop_f_le (pf : AStarPathfinder) (safe : Int → Int → Bool) (start goal : Pos)
    (open_set : List Node) (closed_set : List Pos) (hne : open_set ≠ [])
    (hinv : SearchInv pf safe start goal open_set closed_set)
    (hopt : OptInv pf safe start goal open_set closed_set) :
    (heappop open_set).1.f_cost ≤ cell_dist start goal := by
  by_contra hgt
  push_neg at hgt
  by_cases hcs : closed_set = []
  · have hop := hinv.empty_case hcs
    have hpop : (heappop open_set).1 = Node.mk start.1 start.2 0 0 0 none := by
      rw [hop, heappop_singleton]
    rw [hpop] at hgt
    have hnn := cell_dist_nonneg start goal
    simp only [Node.f_mk] at hgt
    omega
  · obtain ⟨cm, hcm, hmax⟩ := list_argmax (fun c => cell_dist start c) closed_set hcs
    have hcmS := hopt.closed_shortest cm hcm
    have hcmg := hopt.closed_not_goal cm hcm
    obtain ⟨d, hadj, hdist, hdS, hbnd⟩ := step_toward_goal start goal cm hcmS hcmg
    have hdin := hbnd pf hopt.start_in hopt.goal_in
    rcases hinv.frontier cm hcm d hadj hdin (hopt.all_safe d.1 d.2) with hop | hcl
    · obtain ⟨n', hn'mem, hn'pos⟩ := mem_open_cells.mp hop
      have hmin := heappop_min open_set hne hinv.heap_ok n' hn'mem
      have hok := hinv.node_ok n' hn'mem
      cases hpar : n'.parent with
      | none =>
        obtain ⟨hps, hg0, hf0⟩ := nodeok_root pf safe start goal n' hok hpar
        rw [hn'pos] at hps
        have h0 : cell_dist start d = 0 := by
          rw [← hps]
          exact cell_dist_self d
        have hnn := cell_dist_nonneg start cm
        omega
      | some p =>
        obtain ⟨hpok, hpadj, hng, hnh, hnf⟩ := nodeok_parent pf safe start goal n' hok p hpar
        obtain ⟨hpcl, hpg⟩ := hopt.parent_opt n' hn'mem p hpar
        have hpmax := hmax (node_pos p) hpcl
        have htri := adjacent_cell_dist hpadj start
        rw [hn'pos] at htri hnh
        omega
    · have := hmax d hcl
      omega

theorem pop_node_opt (pf : AStarPathfinder) (safe : Int → Int → Bool) (start goal : Pos)
    (n : Node) (hok : NodeOk pf safe start goal n)
    (hf : n.f_cost ≤ cell_dist start goal) :
    cell_dist start (node_pos n) + cell_dist (node_pos n) goal = cell_dist start goal ∧
    n.g_cost = cell_dist start (node_pos n) := by
  cases hpar : n.parent with
  | none =>
    obtain ⟨hps, hg0, hf0⟩ := nodeok_root pf safe start goal n hok hpar
    rw [hps, hg0, cell_dist_self]
    omega
  | some p =>
    obtain ⟨hpok, hpadj, hng, hnh, hnf⟩ := nodeok_parent pf safe start goal n hok p hpar
    have hgl := nodeok_g pf safe start goal n hok
    have htri := cell_dist_triangle start (node_pos n) goal
    omega

theorem optinv_init (pf : AStarPathfinder) (safe : Int → Int → Bool) (start goal : Pos)
    (hall : ∀ x y : Int, safe x y = true) (hsin : in_bounds pf start)
    (hgin : in_bounds pf goal) :
    OptInv pf safe start goal (heappush [] (Node.mk start.1 start.2 0 0 0 none)) [] := by
  refine ⟨hall, hsin, hgin, by simp, by simp, ?_⟩
  intro n hn p hp
  rw [heappush_nil] at hn
  rcases List.mem_singleton.mp hn with rfl
  simp at hp

theorem opt_step (pf : AStarPathfinder) (safe : Int → Int → Bool) (start goal : Pos)
    (open_set : List Node) (closed_set : List Pos) (hne : open_set ≠ [])
    (hinv : SearchInv pf safe start goal open_set closed_set)
    (hopt : OptInv pf safe start goal open_set closed_set)
    (hngoal : ¬((heappop open_set).1.x = goal.1 ∧ (heappop open_set).1.y = goal.2)) :
    OptInv pf safe start goal
      ((get_neighbors pf (heappop open_set).1).foldl
        (process_neighbor pf safe goal (heappop open_set).1
          (node_pos (heappop open_set).1 :: closed_set))
        (heappop open_set).2)
      (node_pos (heappop open_set).1 :: closed_set) := by
  have hcurmem : (heappop open_set).1 ∈ open_set := heappop_mem _ hne
  have hcurok := hinv.node_ok _ hcurmem
  have hfle := opt_pop_f_le pf safe start goal open_set closed_set hne hinv hopt
  obtain ⟨hcurS, hcurg⟩ := pop_node_opt pf safe start goal _ hcurok hfle
  have hcells := open_cells_heappop_perm open_set hne
  have hcons : (node_pos (heappop open_set).1 :: open_cells (heappop open_set).2).Nodup :=
    hcells.nodup_iff.mp hinv.coords_nodup
  have hrest_nodup : (open_cells (heappop open_set).2).Nodup := (List.nodup_cons.mp hcons).2
  have hrest_ok : ∀ n ∈ (heappop open_set).2, NodeOk pf safe start goal n := fun n hn =>
    hinv.node_ok n (heappop_mem_rest hne hn)
  have hdisj2 : ∀ n ∈ (heappop open_set).2,
      node_pos n ∉ node_pos (heappop open_set).1 :: closed_set := by
    intro n hn
    rw [List.mem_cons]
    rintro (heq | hmem)
    · exact (List.nodup_cons.mp hcons).1 (heq ▸ mem_open_cells.mpr ⟨n, hn, rfl⟩)
    · exact hinv.coords_disj n (heappop_mem_rest hne hn) hmem
  obtain ⟨a1, a2, a3, a4, a5, a6, a7⟩ := fold_process pf safe start goal
    (heappop open_set).1 (node_pos (heappop open_set).1 :: closed_set) hcurok
    (get_neighbors pf (heappop open_set).1) (heappop open_set).2
    (fun nb h => h) hrest_ok hrest_nodup hdisj2 (heappop_heapinv open_set hne hinv.heap_ok)
  refine ⟨hopt.all_safe, hopt.start_in, hopt.goal_in, ?_, ?_, ?_⟩
  · intro c hc
    rcases List.mem_cons.mp hc with rfl | hc2
    · exact hcurS
    · exact hopt.closed_shortest c hc2
  · intro c hc
    rcases List.mem_cons.mp hc with rfl | hc2
    · intro heq
      exact hngoal ⟨congrArg Prod.fst heq, congrArg Prod.snd heq⟩
    · exact hopt.closed_not_goal c hc2
  · intro n hn p hp
    rcases a6 n hn with hm | hpar
    · have hn2 : n ∈ open_set := heappop_mem_rest hne hm
      obtain ⟨hpc, hpg⟩ := hopt.parent_opt n hn2 p hp
      exact ⟨List.mem_cons_of_mem _ hpc, hpg⟩
    · rw [hp] at hpar
      have hpc : p = (heappop open_set).1 := Option.some.inj hpar
      subst hpc
      exact ⟨List.mem_cons.mpr (Or.inl rfl), hcurg⟩

theorem opt_master (pf : AStarPathfinder) (safe : Int → Int → Bool) (start goal : Pos) :
    ∀ (fuel : Nat) (open_set : List Node) (closed_set : List Pos),
      SearchInv pf safe start goal open_set closed_set →
      OptInv pf safe start goal open_set closed_set →
      (allowed_cells pf start).card + 1 ≤ fuel + closed_set.length →
      ∃ p closedF, astar_loop pf safe goal fuel open_set closed_set =
          some (some p, closedF) ∧
        (p.length : Int) = cell_dist start goal + 1 := by
  intro fuel
  induction fuel with
  | zero =>
    intro os cs hinv hopt hfuel
    have := closed_card_le pf start cs hinv.closed_nodup hinv.closed_range
    omega
  | succ fuel ih =>
    intro os cs hinv hopt hfuel
    by_cases hemp : os.isEmpty
    · exfalso
      have hos : os = [] := by
        cases os with
        | nil => rfl
        | cons a t => simp at hemp
      subst hos
      have hall := closed_all pf safe start goal cs hinv hopt.all_safe hopt.start_in
      exact hopt.closed_not_goal goal (hall goal hopt.goal_in) rfl
    · have hne : os ≠ [] := by
        cases os
        · simp at hemp
        · simp
      by_cases hgoal : (heappop os).1.x = goal.1 ∧ (heappop os).1.y = goal.2
      · refine ⟨reconstruct_path pf (heappop os).1, node_pos (heappop os).1 :: cs, ?_, ?_⟩
        · simp only [astar_loop]
          rw [if_neg (by simp [hemp]), if_pos hgoal]
          rfl
        · have hok := hinv.node_ok _ (heappop_mem _ hne)
          have hfle := opt_pop_f_le pf safe start goal os cs hne hinv hopt
          have hpos : node_pos (heappop os).1 = goal := Prod.ext hgoal.1 hgoal.2
          obtain ⟨hS, hg⟩ := pop_node_opt pf safe start goal _ hok hfle
          rw [hpos] at hg
          rw [reconstruct_length pf safe start goal _ hok, hg]
      · have hstep := astar_step pf safe start goal os cs hne hinv
        have hostep := opt_step pf safe start goal os cs hne hinv hopt hgoal
        obtain ⟨p, closedF, hloop, hlen⟩ := ih _ _ hstep hostep (by simp; omega)
        refine ⟨p, closedF, ?_, hlen⟩
        simp only [astar_loop]
        rw [if_neg (by simp [hemp]), if_neg hgoal]
        exact hloop

/-- find_path, called on the pixel images of two in-bounds grid cells with a
body whose safety test passes everywhere, returns a path of exactly the
Manhattan distance plus one cells. -/
theorem find_path_free_opt (pf : AStarPathfinder) (s g : Pos) (body : List Pos)
    (hcs : pf.cell_size ≠ 0) (hsin : in_bounds pf s) (hgin : in_bounds pf g)
    (hfree : ∀ x y : Int, is_safe_position pf x y body true = true) :
    ∃ p, find_path pf (grid_to_pixel pf s.1 s.2) (grid_to_pixel pf g.1 g.2) body = some p ∧
      (p.length : Int) = cell_dist s g + 1 := by
  obtain ⟨p, closedF, hloop, hlen⟩ := opt_master pf
    (fun x y => is_safe_position pf x y body true) s g (astar_fuel pf)
    (heappush [] (Node.mk s.1 s.2 0 0 0 none)) []
    (searchinv_init pf _ s g)
    (optinv_init pf _ s g hfree hsin hgin)
    (by simpa using astar_fuel_ge pf s)
  refine ⟨p, ?_, hlen⟩
  simp only [find_path]
  rw [grid_pixel_roundtrip pf hcs s, grid_pixel_roundtrip pf hcs g, hloop]

/-! ## Lemmas: the obstacle set a search runs over -/

theorem is_safe_eq_obstacles (pf : AStarPathfinder) (x y : Int) (body : List Pos) :
    is_safe_position pf x y body true =
      !decide ((x, y) ∈ ignore_tail_cells (grid_cells pf body)) := by
  simp only [is_safe_position, ignore_tail_cells, grid_cells]
  by_cases h : (body.map fun s => pixel_to_grid pf s.1 s.2).length > 1
  · rw [if_pos ⟨trivial, h⟩, if_pos h]
  · rw [if_neg (fun hc => h hc.2), if_neg h]

theorem find_path_eq_obstacles (pf : AStarPathfinder) (start_pos goal_pos : Pos)
    (body : List Pos) :
    find_path pf start_pos goal_pos body =
      find_path_with_obstacles pf start_pos goal_pos
        (ignore_tail_cells (grid_cells pf body)) := by
  have hsafe : (fun x y => is_safe_position pf x y body true)
      = fun x y => !decide ((x, y) ∈ ignore_tail_cells (grid_cells pf body)) := by
    funext x y
    exact is_safe_eq_obstacles pf x y body
  simp only [find_path, find_path_with_obstacles, hsafe]

/-! ## The claimed properties -/

/-- C1: the claim that a neighbor equal to the goal cell bypasses the
obstacle check is false.  On the 3 by 3 grid with the goal cell (1, 0) inside
the tail-ignored obstacle set, find_path reports no path, while the variant
written after the spec's words (goal exempt from the obstacle check) does
return the two-cell path into the goal. -/
theorem goal_exemption_counterexample :
    pixel_to_grid pf_3x3 10 0 ∈ ignore_tail_cells (grid_cells pf_3x3 body_3x3) ∧
    find_path pf_3x3 (0, 0) (10, 0) body_3x3 = none ∧
    find_path_goal_exempt pf_3x3 (0, 0) (10, 0) body_3x3 = some [(0, 0), (10, 0)] := by
  decide

/-- C1 (amended): find_path has no goal exemption: whenever the goal cell
fails the safety test (it lies in the tail-ignored obstacle set) and differs
from the start cell, the search returns no path. -/
theorem goal_never_exempt (pf : AStarPathfinder) (start_pos goal_pos : Pos)
    (body : List Pos)
    (hblock : is_safe_position pf (pixel_to_grid pf goal_pos.1 goal_pos.2).1
      (pixel_to_grid pf goal_pos.1 goal_pos.2).2 body true = false)
    (hne : pixel_to_grid pf start_pos.1 start_pos.2 ≠
      pixel_to_grid pf goal_pos.1 goal_pos.2) :
    find_path pf start_pos goal_pos body = none := by
  rcases find_path_cases pf start_pos goal_pos body with h | ⟨n, hok, hpos, heq⟩
  · exact h
  · exfalso
    rcases nodeok_safe_or_start pf _ _ _ n hok with hs | hsafe
    · exact hne (by rw [← hs, hpos])
    · have hx : n.x = (pixel_to_grid pf goal_pos.1 goal_pos.2).1 := congrArg Prod.fst hpos
      have hy : n.y = (pixel_to_grid pf goal_pos.1 goal_pos.2).2 := congrArg Prod.snd hpos
      rw [hx, hy] at hsafe
      rw [hsafe] at hblock
      simp at hblock

theorem goal_never_exempt_witness :
    find_path pf_3x3 (0, 0) (10, 0) body_3x3 = none :=
  goal_never_exempt pf_3x3 (0, 0) (10, 0) body_3x3 (by decide) (by decide)

/-- C2: the claim that the tail-directed search runs over exactly the body's
cells minus the tail cell is false.  On the 3 by 1 grid the source's search
(which passes body[:-1] to find_path, whose safety test then drops that
list's last cell as well) walks straight through the middle segment's cell,
while the search over the spec's obstacle set (all body cells except the
tail cell) finds no path. -/
theorem tail_obstacles_counterexample :
    find_safe_path_to_tail pf_3x1 (0, 0) body_3x1 = some [(0, 0), (10, 0), (20, 0)] ∧
    tail_search_spec pf_3x1 (0, 0) body_3x1 = none := by
  decide

/-- C2 (amended): for a body of at least two segments, the tail-directed
search is the path search toward the tail's position over the obstacle cells
of the body with its LAST TWO segments dropped: find_safe_path_to_tail
passes body[:-1], and is_safe_position with ignore_tail drops the last cell
of that list again whenever it still has more than one cell. -/
theorem tail_search_obstacles : ∀ (pf : AStarPathfinder) (head : Pos) (body : List Pos),
    find_safe_path_to_tail pf head body =
      if body.length < 2 then none
      else find_path_with_obstacles pf head (body.getLastD (0, 0))
        (ignore_tail_cells (grid_cells pf body.dropLast)) := by
  intro pf head body
  rw [find_safe_path_to_tail]
  by_cases h : body.length < 2
  · rw [if_pos h, if_pos h]
  · rw [if_neg h, if_neg h]
    exact find_path_eq_obstacles pf head _ body.dropLast

/-- C3: on a grid whose safety test passes everywhere (an empty or
non-blocking snake body), the search finds a path of exactly the Manhattan
distance plus one cells between any two in-bounds cells; and in the
reference 72 by 48 scenario (head cell (10, 5), food cell (15, 5), initial
body) the returned path has 6 cells and the policy's move is RIGHT. -/
theorem search_optimal_free_grid :
    (∀ (pf : AStarPathfinder) (s g : Pos) (body : List Pos),
        pf.cell_size ≠ 0 → in_bounds pf s → in_bounds pf g →
        (∀ x y : Int, is_safe_position pf x y body true = true) →
        ∃ p, find_path pf (grid_to_pixel pf s.1 s.2) (grid_to_pixel pf g.1 g.2) body
            = some p ∧
          (p.length : Int) = cell_dist s g + 1) ∧
    find_path std_pathfinder (100, 50) (150, 50) initial_body = some std_scenario_path ∧
    std_scenario_path.length = 6 ∧
    get_next_move std_pathfinder (100, 50) (150, 50) initial_body = Direction.RIGHT := by
  refine ⟨fun pf s g body h1 h2 h3 h4 => find_path_free_opt pf s g body h1 h2 h3 h4,
    by decide, by decide, by decide⟩

theorem search_optimal_free_grid_witness :
    ∃ p, find_path std_pathfinder (grid_to_pixel std_pathfinder 10 5)
        (grid_to_pixel std_pathfinder 15 5) [] = some p ∧
      (p.length : Int) = cell_dist (10, 5) (15, 5) + 1 :=
  search_optimal_free_grid.1 std_pathfinder (10, 5) (15, 5) []
    (by decide) (by decide) (by decide) (fun x y => rfl)

/-- C4: the claim that no returned path cell except the goal lies in the
obstacle set is false at the start cell: in the reference scenario the
returned path starts at the head pixel (100, 50), whose cell lies in the
tail-ignored obstacle set (the head is part of the body). -/
theorem path_start_unsafe_counterexample :
    (find_path std_pathfinder (100, 50) (150, 50) initial_body).map
        (fun p => p.getD 0 (0, 0)) = some (100, 50) ∧
    pixel_to_grid std_pathfinder 100 50 ∈
      ignore_tail_cells (grid_cells std_pathfinder initial_body) := by
  decide

/-- C4 (amended): every cell of a returned path after the first (the goal
included) passes the safety test of the search — it is not in the
tail-ignored obstacle set — and is in bounds; only the start cell is
exempt, being placed on the path without any check. -/
theorem path_cells_safe_after_start (pf : AStarPathfinder) (start_pos goal_pos : Pos)
    (body : List Pos) (p : List Pos)
    (hfp : find_path pf start_pos goal_pos body = some p) :
    ∀ c ∈ p.drop 1, ∃ cell : Pos, c = grid_to_pixel pf cell.1 cell.2 ∧
      is_safe_position pf cell.1 cell.2 body true = true ∧ in_bounds pf cell := by
  rcases find_path_cases pf start_pos goal_pos body with h | ⟨n, hok, hpos, heq⟩
  · rw [hfp] at h
    simp at h
  · rw [hfp] at heq
    have hp := Option.some.inj heq
    subst hp
    exact reconstruct_drop pf _ _ _ n hok

theorem path_cells_safe_after_start_witness :
    ∃ cell : Pos, ((110, 50) : Pos) = grid_to_pixel std_pathfinder cell.1 cell.2 ∧
      is_safe_position std_pathfinder cell.1 cell.2 initial_body true = true ∧
      in_bounds std_pathfinder cell :=
  path_cells_safe_after_start std_pathfinder (100, 50) (150, 50) initial_body
    std_scenario_path (by decide) (110, 50) (by decide)

/-- C5: the move policy's strict cascade: a food path of length at least two
wins and yields the direction to its second cell; otherwise a tail path of
length at least two yields the direction to its second cell; otherwise the
scan runs in the fixed order UP, DOWN, LEFT, RIGHT and returns the first
direction whose moved cell is in bounds and outside the tail-ignored
obstacle set, RIGHT when none is. -/
theorem move_policy_cascade :
    (∀ (pf : AStarPathfinder) (head food : Pos) (body p : List Pos),
        find_path pf head food body = some p → p.length > 1 →
        get_next_move pf head food body = get_next_direction head (p.getD 1 (0, 0))) ∧
    (∀ (pf : AStarPathfinder) (head food : Pos) (body tp : List Pos),
        (∀ p, find_path pf head food body = some p → ¬p.length > 1) →
        find_safe_path_to_tail pf head body = some tp → tp.length > 1 →
        get_next_move pf head food body = get_next_direction head (tp.getD 1 (0, 0))) ∧
    (∀ (pf : AStarPathfinder) (head food : Pos) (body : List Pos),
        (∀ p, find_path pf head food body = some p → ¬p.length > 1) →
        (∀ tp, find_safe_path_to_tail pf head body = some tp → ¬tp.length > 1) →
        get_next_move pf head food body = make_safe_move pf head body) ∧
    (∀ (pf : AStarPathfinder) (head : Pos) (body : List Pos),
        safe_step pf head body .UP = true → make_safe_move pf head body = .UP) ∧
    (∀ (pf : AStarPathfinder) (head : Pos) (body : List Pos),
        safe_step pf head body .UP = false → safe_step pf head body .DOWN = true →
        make_safe_move pf head body = .DOWN) ∧
    (∀ (pf : AStarPathfinder) (head : Pos) (body : List Pos),
        safe_step pf head body .UP = false → safe_step pf head body .DOWN = false →
        safe_step pf head body .LEFT = true → make_safe_move pf head body = .LEFT) ∧
    (∀ (pf : AStarPathfinder) (head : Pos) (body : List Pos),
        safe_step pf head body .UP = false → safe_step pf head body .DOWN = false →
        safe_step pf head body .LEFT = false → make_safe_move pf head body = .RIGHT) ∧
    (∀ (pf : AStarPathfinder) (head : Pos) (body : List Pos) (d : Direction),
        safe_step pf head body d = true ↔
          in_bounds pf (pixel_to_grid pf (move_step head d).1 (move_step head d).2) ∧
          pixel_to_grid pf (move_step head d).1 (move_step head d).2 ∉
            ignore_tail_cells (grid_cells pf body)) := by
  refine ⟨?_, ?_, ?_, ?_, ?_, ?_, ?_, ?_⟩
  · intro pf head food body p hfp hlen
    unfold get_next_move
    rw [hfp]
    show (if p.length > 1 then get_next_direction head (p.getD 1 (0, 0))
        else survival_move pf head body) = _
    rw [if_pos hlen]
  · intro pf head food body tp hfood htp hlen
    have hsurv : get_next_move pf head food body = survival_move pf head body := by
      unfold get_next_move
      cases hfp : find_path pf head food body with
      | none => rfl
      | some p =>
        show (if p.length > 1 then get_next_direction head (p.getD 1 (0, 0))
            else survival_move pf head body) = _
        rw [if_neg (hfood p hfp)]
    rw [hsurv]
    unfold survival_move
    rw [htp]
    show (if tp.length > 1 then get_next_direction head (tp.getD 1 (0, 0))
        else make_safe_move pf head body) = _
    rw [if_pos hlen]
  · intro pf head food body hfood htail
    have hsurv : get_next_move pf head food body = survival_move pf head body := by
      unfold get_next_move
      cases hfp : find_path pf head food body with
      | none => rfl
      | some p =>
        show (if p.length > 1 then get_next_direction head (p.getD 1 (0, 0))
            else survival_move pf head body) = _
        rw [if_neg (hfood p hfp)]
    rw [hsurv]
    unfold survival_move
    cases htp : find_safe_path_to_tail pf head body with
    | none => rfl
    | some tp =>
      show (if tp.length > 1 then get_next_direction head (tp.getD 1 (0, 0))
          else make_safe_move pf head body) = _
      rw [if_neg (htail tp htp)]
  · intro pf head body h1
    unfold make_safe_move
    rw [List.find?_cons_of_pos _ h1]
  · intro pf head body h1 h2
    unfold make_safe_move
    rw [List.find?_cons_of_neg _ (by simp [h1]), List.find?_cons_of_pos _ h2]
  · intro pf head body h1 h2 h3
    unfold make_safe_move
    rw [List.find?_cons_of_neg _ (by simp [h1]), List.find?_cons_of_neg _ (by simp [h2]),
      List.find?_cons_of_pos _ h3]
  · intro pf head body h1 h2 h3
    unfold make_safe_move
    cases h4 : safe_step pf head body .RIGHT with
    | true =>
      rw [List.find?_cons_of_neg _ (by simp [h1]), List.find?_cons_of_neg _ (by simp [h2]),
        List.find?_cons_of_neg _ (by simp [h3]), List.find?_cons_of_pos _ h4]
    | false =>
      rw [List.find?_cons_of_neg _ (by simp [h1]), List.find?_cons_of_neg _ (by simp [h2]),
        List.find?_cons_of_neg _ (by simp [h3]), List.find?_cons_of_neg _ (by simp [h4])]
      rfl
  · intro pf head body d
    simp only [safe_step, Bool.and_eq_true, decide_eq_true_eq, is_safe_eq_obstacles,
      Bool.not_eq_true', decide_eq_false_iff_not]
    exact Iff.rfl

theorem move_policy_cascade_witness :
    get_next_move std_pathfinder (100, 50) (150, 50) initial_body =
      get_next_direction (100, 50) (std_scenario_path.getD 1 (0, 0)) :=
  move_policy_cascade.1 std_pathfinder (100, 50) (150, 50) initial_body std_scenario_path
    (by decide) (by decide)

/-- C6: the claim that every in-bounds cell is a possible spawn result is
false: the in-bounds cell (0, 0) can never be produced, because both
randrange(1, window // 10) draws start at 1, so column 0 and row 0 are
unreachable. -/
theorem spawn_misses_cell_zero :
    in_bounds std_pathfinder (0, 0) ∧
    ¬∃ rx ry : Int, fruit_draw_valid 720 rx ∧ fruit_draw_valid 480 ry ∧
      pixel_to_grid std_pathfinder (spawn_fruit rx ry).1 (spawn_fruit rx ry).2 = (0, 0) := by
  refine ⟨by decide, ?_⟩
  rintro ⟨rx, ry, hvx, hvy, heq⟩
  obtain ⟨h1, h2⟩ := hvx
  have hx : Int.fdiv (rx * 10) 10 = rx := Int.mul_fdiv_cancel rx (by norm_num)
  have heq1 : Int.fdiv (rx * 10) 10 = 0 := congrArg Prod.fst heq
  rw [hx] at heq1
  omega

/-- C6 (amended): the spawn results are exactly the cells of columns 1..71
and rows 1..47: every valid pair of draws lands in bounds on such a cell
(never column or row 0), and every such cell arises from a valid pair of
draws.  Nothing in the spawn consults the snake body. -/
theorem spawn_range_exact :
    (∀ rx ry : Int, fruit_draw_valid 720 rx → fruit_draw_valid 480 ry →
        pixel_to_grid std_pathfinder (spawn_fruit rx ry).1 (spawn_fruit rx ry).2 = (rx, ry) ∧
        in_bounds std_pathfinder (rx, ry) ∧ 1 ≤ rx ∧ 1 ≤ ry) ∧
    (∀ c : Pos, 1 ≤ c.1 → c.1 ≤ 71 → 1 ≤ c.2 → c.2 ≤ 47 →
        fruit_draw_valid 720 c.1 ∧ fruit_draw_valid 480 c.2 ∧
        pixel_to_grid std_pathfinder (spawn_fruit c.1 c.2).1 (spawn_fruit c.1 c.2).2 = c) := by
  have h72 : Int.fdiv 720 10 = 72 := by decide
  have h48 : Int.fdiv 480 10 = 48 := by decide
  have hc : std_pathfinder.grid_cols = 72 := by decide
  have hr : std_pathfinder.grid_rows = 48 := by decide
  constructor
  · intro rx ry hvx hvy
    obtain ⟨h1, h2⟩ := hvx
    obtain ⟨h3, h4⟩ := hvy
    rw [h72] at h2
    rw [h48] at h4
    have hx : Int.fdiv (rx * 10) 10 = rx := Int.mul_fdiv_cancel rx (by norm_num)
    have hy : Int.fdiv (ry * 10) 10 = ry := Int.mul_fdiv_cancel ry (by norm_num)
    refine ⟨?_, ⟨by omega, ?_, by omega, ?_⟩, h1, h3⟩
    · show (Int.fdiv (rx * 10) 10, Int.fdiv (ry * 10) 10) = (rx, ry)
      rw [hx, hy]
    · rw [hc]
      omega
    · rw [hr]
      omega
  · intro c h1 h2 h3 h4
    have hx : Int.fdiv (c.1 * 10) 10 = c.1 := Int.mul_fdiv_cancel c.1 (by norm_num)
    have hy : Int.fdiv (c.2 * 10) 10 = c.2 := Int.mul_fdiv_cancel c.2 (by norm_num)
    refine ⟨⟨h1, by rw [h72]; omega⟩, ⟨h3, by rw [h48]; omega⟩, ?_⟩
    show (Int.fdiv (c.1 * 10) 10, Int.fdiv (c.2 * 10) 10) = c
    rw [hx, hy]

theorem spawn_range_exact_witness :
    pixel_to_grid std_pathfinder (spawn_fruit 1 1).1 (spawn_fruit 1 1).2 = (1, 1) ∧
    in_bounds std_pathfinder (1, 1) ∧ (1 : Int) ≤ 1 ∧ (1 : Int) ≤ 1 :=
  spawn_range_exact.1 1 1 (by decide) (by decide)

/-- C7: for every input the search loop reaches one of the source's two
exits within the provided fuel — it terminates, returning either a path or
no path once the open set empties — and the final closed list (the cells
popped and expanded, newest first) has no duplicate, so each cell is
expanded at most once per invocation. -/
theorem search_terminates_unique_expansion :
    ∀ (pf : AStarPathfinder) (start_pos goal_pos : Pos) (body : List Pos),
      ∃ (res : Option (List Pos)) (closedF : List Pos),
        astar_loop pf (fun x y => is_safe_position pf x y body true)
          (pixel_to_grid pf goal_pos.1 goal_pos.2) (astar_fuel pf)
          (heappush [] (Node.mk (pixel_to_grid pf start_pos.1 start_pos.2).1
            (pixel_to_grid pf start_pos.1 start_pos.2).2 0 0 0 none)) []
          = some (res, closedF) ∧
        closedF.Nodup ∧ find_path pf start_pos goal_pos body = res := by
  intro pf start_pos goal_pos body
  obtain ⟨res, closedF, hloop, hnodup, -⟩ := astar_master pf
    (fun x y => is_safe_position pf x y body true)
    (pixel_to_grid pf start_pos.1 start_pos.2) (pixel_to_grid pf goal_pos.1 goal_pos.2)
    (astar_fuel pf) _ [] (searchinv_init pf _ _ _)
    (by simpa using astar_fuel_ge pf (pixel_to_grid pf start_pos.1 start_pos.2))
  refine ⟨res, closedF, hloop, hnodup, ?_⟩
  simp only [find_path]
  rw [hloop]

/-- C8: both drivers' direction validation ignores an exact 180-degree
reversal request, keeping the prior direction, and the updated direction is
never the opposite of the prior one. -/
theorem no_reversal :
    ∀ c d : Direction,
      update_direction (Direction.opposite d) d = d ∧
      update_direction_seq (Direction.opposite d) d = d ∧
      update_direction c d ≠ Direction.opposite d ∧
      update_direction_seq c d ≠ Direction.opposite d := by
  intro c d
  cases c <;> cases d <;> decide

/-- C9: the grid mapper's round trips: grid-to-pixel then pixel-to-grid is
the identity on cells (for a nonzero cell size), and pixel-to-grid then
grid-to-pixel is the identity on pixel positions whose coordinates are
multiples of the cell size. -/
theorem grid_mapper_roundtrip :
    (∀ pf : AStarPathfinder, pf.cell_size ≠ 0 → ∀ c : Pos,
        pixel_to_grid pf (grid_to_pixel pf c.1 c.2).1 (grid_to_pixel pf c.1 c.2).2 = c) ∧
    (∀ (pf : AStarPathfinder) (p : Pos), pf.cell_size ≠ 0 →
        pf.cell_size ∣ p.1 → pf.cell_size ∣ p.2 →
        grid_to_pixel pf (pixel_to_grid pf p.1 p.2).1 (pixel_to_grid pf p.1 p.2).2 = p) := by
  constructor
  · intro pf hcs c
    exact grid_pixel_roundtrip pf hcs c
  · intro pf p hcs h1 h2
    obtain ⟨k1, hk1⟩ := h1
    obtain ⟨k2, hk2⟩ := h2
    simp only [pixel_to_grid, grid_to_pixel]
    rw [hk1, hk2, Int.mul_fdiv_cancel_left k1 hcs, Int.mul_fdiv_cancel_left k2 hcs]
    refine Prod.ext ?_ ?_
    · show k1 * pf.cell_size = p.1
      rw [hk1, mul_comm]
    · show k2 * pf.cell_size = p.2
      rw [hk2, mul_comm]

theorem grid_mapper_roundtrip_witness :
    pixel_to_grid std_pathfinder (grid_to_pixel std_pathfinder 10 5).1
        (grid_to_pixel std_pathfinder 10 5).2 = (10, 5) ∧
    grid_to_pixel std_pathfinder (pixel_to_grid std_pathfinder 100 50).1
        (pixel_to_grid std_pathfinder 100 50).2 = (100, 50) :=
  ⟨grid_mapper_roundtrip.1 std_pathfinder (by decide) (10, 5),
   grid_mapper_roundtrip.2 std_pathfinder (100, 50) (by decide) (by decide) (by decide)⟩

/-- C10: every returned path is a connected walk: consecutive positions
differ by exactly the cell size in exactly one pixel coordinate and agree in
the other, and every position after the first is the pixel image of an
in-bounds grid cell. -/
theorem path_connected_walk (pf : AStarPathfinder) (start_pos goal_pos : Pos)
    (body : List Pos) (p : List Pos)
    (hfp : find_path pf start_pos goal_pos body = some p) (hpos : 0 < pf.cell_size) :
    p.Chain' (fun a b => (|b.1 - a.1| = pf.cell_size ∧ b.2 = a.2) ∨
      (b.1 = a.1 ∧ |b.2 - a.2| = pf.cell_size)) ∧
    ∀ c ∈ p.drop 1, ∃ cell : Pos, c = grid_to_pixel pf cell.1 cell.2 ∧ in_bounds pf cell := by
  rcases find_path_cases pf start_pos goal_pos body with h | ⟨n, hok, hgl, heq⟩
  · rw [hfp] at h
    simp at h
  · rw [hfp] at heq
    have hp := Option.some.inj heq
    subst hp
    constructor
    · have hch := reconstruct_chain pf _ _ _ n hok
      refine List.Chain'.imp ?_ hch
      rintro a b ⟨ca, cb, rfl, rfl, hadj⟩
      have hcases : (cb.1 - ca.1 = 1 ∧ cb.2 = ca.2) ∨ (cb.1 - ca.1 = -1 ∧ cb.2 = ca.2) ∨
          (cb.1 = ca.1 ∧ cb.2 - ca.2 = 1) ∨ (cb.1 = ca.1 ∧ cb.2 - ca.2 = -1) := by
        simp only [adjacent, Int.abs_eq_natAbs] at hadj
        omega
      simp only [grid_to_pixel]
      rcases hcases with ⟨hd, he⟩ | ⟨hd, he⟩ | ⟨hd, he⟩ | ⟨hd, he⟩
      · left
        refine ⟨?_, by rw [he]⟩
        rw [show cb.1 * pf.cell_size - ca.1 * pf.cell_size = pf.cell_size from by
          rw [← sub_mul, hd, one_mul]]
        exact abs_of_pos hpos
      · left
        refine ⟨?_, by rw [he]⟩
        rw [show cb.1 * pf.cell_size - ca.1 * pf.cell_size = -pf.cell_size from by
          rw [← sub_mul, hd]; ring]
        rw [abs_neg]
        exact abs_of_pos hpos
      · right
        refine ⟨by rw [hd], ?_⟩
        rw [show cb.2 * pf.cell_size - ca.2 * pf.cell_size = pf.cell_size from by
          rw [← sub_mul, he, one_mul]]
        exact abs_of_pos hpos
      · right
        refine ⟨by rw [hd], ?_⟩
        rw [show cb.2 * pf.cell_size - ca.2 * pf.cell_size = -pf.cell_size from by
          rw [← sub_mul, he]; ring]
        rw [abs_neg]
        exact abs_of_pos hpos
    · intro c hc
      obtain ⟨cell, hcell, -, hin⟩ := reconstruct_drop pf _ _ _ n hok c hc
      exact ⟨cell, hcell, hin⟩

theorem path_connected_walk_witness :
    std_scenario_path.Chain' (fun a b =>
      (|b.1 - a.1| = std_pathfinder.cell_size ∧ b.2 = a.2) ∨
      (b.1 = a.1 ∧ |b.2 - a.2| = std_pathfinder.cell_size)) ∧
    ∃ cell : Pos, ((110, 50) : Pos) = grid_to_pixel std_pathfinder cell.1 cell.2 ∧
      in_bounds std_pathfinder cell :=
  ⟨(path_connected_walk std_pathfinder (100, 50) (150, 50) initial_body std_scenario_path
      (by decide) (by decide)).1,
   (path_connected_walk std_pathfinder (100, 50) (150, 50) initial_body std_scenario_path
      (by decide) (by decide)).2 (110, 50) (by decide)⟩

end SnakePy
